/-
Verification of the graph-rag-llm-transformer repository.

This file shallowly embeds the decision logic of the repository's Python
sources (src/wals.py, src/graph_builder.py, src/graph_explorer.py,
src/retrieve_and_query.py) as executable Lean definitions and proves
properties of them.  Machine-level details that the claims depend on are
modelled explicitly; in particular:

  * pandas `DataFrame.groupby(col)` is modelled with its default
    arguments: rows whose key is NaN are dropped (dropna=True) and group
    keys are emitted in ascending sorted order (sort=True), each group
    keeping its rows in original source order;
  * nullable CSV cells are `Option String`; Python's `str(...)` of a NaN
    cell yields the string "nan", which is modelled by `Option.getD "nan"`;
  * Python's `s.strip()` is modelled by `pyStrip` (drop whitespace
    characters from both ends); Python's `str.lower()` is modelled by
    `String.toLower` (the inputs exercised here are ASCII or already
    lower-case, where the two agree);
  * Cypher executed against Neo4j is modelled by a small graph-state
    machine (`GraphState`) in which MERGE of a node pattern matches any
    node carrying all the pattern's properties and creates the node
    exactly when no match exists, MATCH binds all matching nodes, SET
    updates properties of all matched nodes, and MERGE of a relationship
    adds the edge for every bound endpoint pair that does not already
    have one;
  * Python exceptions crossing a boundary are modelled with `Except`;
    the outcome of an external LLM/graph call is an arbitrary value of
    the corresponding outcome type.
-/
import Mathlib

namespace GraphRag

/-! ## String helpers shared by several source files -/

/-- The whitespace characters removed by Python's `str.strip()`. -/
def pyWs (c : Char) : Bool :=
  c == ' ' || c == '\t' || c == '\n' || c == '\r' || c == '\x0b' || c == '\x0c'

/-- Python's `str.strip()`: remove leading and trailing whitespace. -/
def pyStrip (s : String) : String :=
  ⟨((s.data.dropWhile pyWs).reverse.dropWhile pyWs).reverse⟩

/-- The quote-escaping used in src/graph_builder.py:
`.replace('"', '\\"').replace("'", "\\'")`. -/
def esc (s : String) : String :=
  (s.replace "\x22" "\\\x22").replace "\x27" "\\\x27"

/-- Python's `str.lower()`, modelled character-wise.  `Char.toLower`
lowers only ASCII letters; the inputs exercised in this development are
ASCII or already lower-case, where this agrees with Python. -/
def pyLower (s : String) : String :=
  ⟨s.data.map Char.toLower⟩

/-- `needle` occurs at the start of `hay`. -/
def startsWithChars : List Char → List Char → Bool
  | [], _ => true
  | _ :: _, [] => false
  | a :: ns, b :: hs => a == b && startsWithChars ns hs

/-- `needle` occurs somewhere inside `hay` (substring containment). -/
def containsChars (needle : List Char) : List Char → Bool
  | [] => needle.isEmpty
  | b :: hs => startsWithChars needle (b :: hs) || containsChars needle hs

/-- Case-insensitive substring containment, the model of Cypher
`LOWER(a) CONTAINS LOWER(b)`. -/
def strContainsCI (hay needle : String) : Bool :=
  containsChars (pyLower needle).data (pyLower hay).data

/-! ## src/wals.py — data model

One row of `data/languages.csv` as read by pandas.  Nullable cells are
`Option String`; numeric cells (`Latitude`, `Longitude`) are kept in the
string form in which the renderer's f-string interpolates them (with NaN
rendered "nan"), since the code never computes with them. -/

structure LangRow where
  Name : String
  Family : Option String
  Subfamily : Option String
  Genus : Option String
  Latitude : String
  Longitude : String
  Country_ID : Option String
  ISO639P3code : Option String
  Macroarea : Option String
  ID : String
deriving DecidableEq, Repr

/-- One row of `data/countries.csv`. -/
structure CountryRow where
  ID : String
  Name : String
deriving DecidableEq, Repr

/-! ## src/wals.py — WALSDataProcessor.generate_chunks (Record Batcher) -/

/-- Insertion of a string into a sorted list (ascending), used to model
pandas' `sort=True` ordering of group keys. -/
def insertKey (x : String) : List String → List String
  | [] => [x]
  | y :: ys => if x < y then x :: y :: ys else y :: insertKey x ys

/-- Ascending sort of group keys. -/
def sortKeys (l : List String) : List String :=
  l.foldr insertKey []

/-- The distinct `Family` values of the table, NaN dropped, in the order
pandas `groupby('Family')` iterates them (sorted ascending).  Rows with
a null family contribute no key: pandas `groupby` with its default
`dropna=True` silently excludes NaN keys. -/
def familyKeys (rows : List LangRow) : List String :=
  sortKeys (rows.filterMap (fun r => r.Family)).dedup

/-- The group of a family key: the rows carrying that family, in source
order (`families` iteration in generate_chunks). -/
def familyGroup (rows : List LangRow) (k : String) : List LangRow :=
  rows.filter (fun r => r.Family == some k)

/-- `for i in range(0, len(family_langs), batch_size): batch =
family_langs.iloc[i:i+batch_size]` — consecutive batches of at most `B`
records.  `B = 0` would make Python's `range` raise; the model returns
no batches there. -/
def splitBatches (B : Nat) (xs : List LangRow) : List (List LangRow) :=
  if xs = [] ∨ B = 0 then []
  else xs.take B :: splitBatches B (xs.drop B)
termination_by xs.length
decreasing_by
  simp only [not_or] at *
  cases xs with
  | nil => simp_all
  | cons a l =>
    have hB : B ≠ 0 := by tauto
    simp [List.length_drop]
    omega

/-- The Record Batcher of `WALSDataProcessor.generate_chunks`: group the
table by family (NaN families dropped by pandas), then cut each group
into consecutive batches of at most `B` rows.  Each emitted pair is
(family label, record batch), in chunk-generation order. -/
def generate_chunks (B : Nat) (rows : List LangRow) : List (String × List LangRow) :=
  (familyKeys rows).flatMap
    (fun k => (splitBatches B (familyGroup rows k)).map (fun b => (k, b)))

/-! ### Lemmas about the Record Batcher -/

theorem splitBatches_eq (B : Nat) (xs : List LangRow) :
    splitBatches B xs =
      if xs = [] ∨ B = 0 then [] else xs.take B :: splitBatches B (xs.drop B) := by
  rw [splitBatches]

theorem splitBatches_flatten_aux (B : Nat) (hB : B ≠ 0) :
    ∀ (n : Nat) (xs : List LangRow), xs.length ≤ n → (splitBatches B xs).flatten = xs := by
  intro n
  induction n with
  | zero =>
    intro xs h
    have hx : xs = [] := by cases xs <;> simp_all
    subst hx
    rw [splitBatches_eq]; simp
  | succ n ih =>
    intro xs h
    rw [splitBatches_eq]
    by_cases hx : xs = []
    · subst hx; simp
    · have hcond : ¬ (xs = [] ∨ B = 0) := by tauto
      rw [if_neg hcond]
      have hlen : 0 < xs.length := List.length_pos.mpr hx
      have hdrop : (xs.drop B).length ≤ n := by
        rw [List.length_drop]; omega
      rw [List.flatten_cons, ih (xs.drop B) hdrop, List.take_append_drop]

/-- Concatenating all batches of one group recovers the group. -/
theorem splitBatches_flatten (B : Nat) (hB : B ≠ 0) (xs : List LangRow) :
    (splitBatches B xs).flatten = xs :=
  splitBatches_flatten_aux B hB xs.length xs le_rfl

theorem splitBatches_batch_aux (B : Nat) :
    ∀ (n : Nat) (xs : List LangRow), xs.length ≤ n →
      ∀ b ∈ splitBatches B xs, b ≠ [] ∧ b.length ≤ B ∧ ∀ r ∈ b, r ∈ xs := by
  intro n
  induction n with
  | zero =>
    intro xs h b hb
    have hx : xs = [] := by cases xs <;> simp_all
    subst hx
    rw [splitBatches_eq] at hb
    simp at hb
  | succ n ih =>
    intro xs h b hb
    rw [splitBatches_eq] at hb
    by_cases hcond : xs = [] ∨ B = 0
    · rw [if_pos hcond] at hb; simp at hb
    · rw [if_neg hcond] at hb
      push_neg at hcond
      rw [List.mem_cons] at hb
      rcases hb with hb | hb
      · subst hb
        refine ⟨?_, ?_, ?_⟩
        · intro hcontra
          rw [List.take_eq_nil_iff] at hcontra
          tauto
        · rw [List.length_take]
          exact min_le_left _ _
        · intro r hr; exact List.take_subset B xs hr
      · have hlen : 0 < xs.length := List.length_pos.mpr hcond.1
        have hdrop : (xs.drop B).length ≤ n := by
          rw [List.length_drop]; omega
        obtain ⟨h1, h2, h3⟩ := ih (xs.drop B) hdrop b hb
        exact ⟨h1, h2, fun r hr => List.drop_subset B xs (h3 r hr)⟩

theorem mem_insertKey (x a : String) (l : List String) :
    a ∈ insertKey x l ↔ a = x ∨ a ∈ l := by
  induction l with
  | nil => simp [insertKey]
  | cons y ys ih =>
    simp only [insertKey]
    by_cases hxy : x < y
    · simp [hxy]
    · simp only [if_neg hxy, List.mem_cons, ih]
      tauto

theorem nodup_insertKey (x : String) (l : List String) (hx : x ∉ l) (hl : l.Nodup) :
    (insertKey x l).Nodup := by
  induction l with
  | nil => simp [insertKey]
  | cons y ys ih =>
    simp only [insertKey]
    by_cases hxy : x < y
    · rw [if_pos hxy]
      refine List.nodup_cons.mpr ⟨hx, hl⟩
    · rw [if_neg hxy]
      have hxys : x ∉ ys := fun h => hx (List.mem_cons_of_mem _ h)
      have hys : ys.Nodup := (List.nodup_cons.mp hl).2
      refine List.nodup_cons.mpr ⟨?_, ih hxys hys⟩
      intro hy
      rcases (mem_insertKey x y ys).mp hy with h | h
      · exact hx (h ▸ List.mem_cons_self y ys)
      · exact (List.nodup_cons.mp hl).1 h

theorem mem_sortKeys (a : String) (l : List String) : a ∈ sortKeys l ↔ a ∈ l := by
  induction l with
  | nil => simp [sortKeys]
  | cons y ys ih =>
    simp only [sortKeys, List.foldr_cons] at *
    rw [mem_insertKey, ih]
    simp

theorem nodup_sortKeys (l : List String) (h : l.Nodup) : (sortKeys l).Nodup := by
  induction l with
  | nil => simp [sortKeys]
  | cons y ys ih =>
    simp only [sortKeys, List.foldr_cons] at *
    obtain ⟨hy, hys⟩ := List.nodup_cons.mp h
    refine nodup_insertKey y _ ?_ (ih hys)
    have hmem := mem_sortKeys y ys
    simp only [sortKeys] at hmem
    rw [hmem]
    exact hy

theorem mem_familyKeys (rows : List LangRow) (f : String) :
    f ∈ familyKeys rows ↔ ∃ r ∈ rows, r.Family = some f := by
  unfold familyKeys
  rw [mem_sortKeys, List.mem_dedup, List.mem_filterMap]

theorem nodup_familyKeys (rows : List LangRow) : (familyKeys rows).Nodup :=
  nodup_sortKeys _ (List.nodup_dedup _)

theorem filter_flatMap_eq {α β : Type} (l : List α) (g : α → List β) (q : β → Bool) :
    (l.flatMap g).filter q = l.flatMap (fun a => (g a).filter q) := by
  induction l with
  | nil => simp
  | cons a t ih => simp [List.flatMap_cons, List.filter_append, ih]

theorem generate_chunks_keys_aux (B : Nat) (hB : B ≠ 0) (rows : List LangRow) (f : String) :
    ∀ ks : List String, ks.Nodup →
      ((ks.flatMap (fun k => (splitBatches B (familyGroup rows k)).map (fun b => (k, b)))).filter
          (fun p => p.1 == f)).flatMap (fun p => p.2)
        = if f ∈ ks then familyGroup rows f else [] := by
  intro ks
  induction ks with
  | nil => simp
  | cons k t ih =>
    intro hnd
    obtain ⟨hk, ht⟩ := List.nodup_cons.mp hnd
    rw [List.flatMap_cons, List.filter_append, List.flatMap_append, ih ht,
      List.filter_map]
    by_cases hkf : k = f
    · have hnotmem : f ∉ t := hkf ▸ hk
      have hmem : f ∈ k :: t := by rw [hkf]; exact List.mem_cons_self _ _
      have hpred : ((fun p : String × List LangRow => p.1 == f) ∘ fun b => (k, b))
          = fun _ => true := by
        funext b; simp [hkf]
      rw [hpred, List.filter_true]
      have hfm : ∀ l : List (List LangRow), (l.flatMap fun a => a) = l.flatten := by
        intro l
        induction l with
        | nil => rfl
        | cons x xs ihx => simp [List.flatMap_cons, List.flatten_cons, ihx]
      have hjoin : ((splitBatches B (familyGroup rows k)).map (fun b => (k, b))).flatMap
          (fun p => p.2) = (splitBatches B (familyGroup rows k)).flatten := by
        rw [List.flatMap_map]
        exact hfm _
      rw [hjoin, splitBatches_flatten B hB, if_neg hnotmem, if_pos hmem,
        List.append_nil, hkf]
    · have hpred : ((fun p : String × List LangRow => p.1 == f) ∘ fun b => (k, b))
          = fun _ => false := by
        funext b; simp [hkf]
      rw [hpred, List.filter_false]
      simp only [List.map_nil, List.flatMap_nil, List.nil_append]
      by_cases hft : f ∈ t
      · have hmem : f ∈ k :: t := List.mem_cons_of_mem _ hft
        rw [if_pos hft, if_pos hmem]
      · have hmem : ¬ f ∈ k :: t := by
          simp only [List.mem_cons]
          push_neg
          exact ⟨fun h => hkf h.symm, hft⟩
        rw [if_neg hft, if_neg hmem]

/-- Per-family recovery: the batches labelled `f`, concatenated in output
order, are exactly the rows of family `f` in source order. -/
theorem generate_chunks_family (B : Nat) (hB : B ≠ 0) (rows : List LangRow) (f : String) :
    ((generate_chunks B rows).filter (fun p => p.1 == f)).flatMap (fun p => p.2)
      = rows.filter (fun r => r.Family == some f) := by
  unfold generate_chunks
  rw [generate_chunks_keys_aux B hB rows f _ (nodup_familyKeys rows)]
  by_cases hf : f ∈ familyKeys rows
  · rw [if_pos hf]; rfl
  · rw [if_neg hf]
    rw [mem_familyKeys] at hf
    push_neg at hf
    symm
    rw [List.filter_eq_nil_iff]
    intro r hr
    simp only [beq_iff_eq]
    exact fun h => hf r hr h

/-- C1: the Record Batcher splits each family's group into consecutive
batches: concatenating the batches emitted for one family yields that
family's records in source order, every batch is non-empty, no batch
exceeds `B` records, and every record in a batch carries the batch's
family (so no batch mixes families). -/
theorem generate_chunks_correct (B : Nat) (rows : List LangRow) (hB : 1 ≤ B) :
    (∀ f : String,
      ((generate_chunks B rows).filter (fun p => p.1 == f)).flatMap (fun p => p.2)
        = rows.filter (fun r => r.Family == some f))
    ∧ ∀ p ∈ generate_chunks B rows,
        p.2 ≠ [] ∧ p.2.length ≤ B ∧ ∀ r ∈ p.2, r.Family = some p.1 := by
  have hB0 : B ≠ 0 := by omega
  constructor
  · exact fun f => generate_chunks_family B hB0 rows f
  · intro p hp
    unfold generate_chunks at hp
    rw [List.mem_flatMap] at hp
    obtain ⟨k, _, hpk⟩ := hp
    rw [List.mem_map] at hpk
    obtain ⟨b, hb, hpb⟩ := hpk
    obtain ⟨h1, h2, h3⟩ :=
      splitBatches_batch_aux B (familyGroup rows k).length (familyGroup rows k) le_rfl b hb
    subst hpb
    refine ⟨h1, h2, ?_⟩
    intro r hr
    have := h3 r hr
    unfold familyGroup at this
    have := List.of_mem_filter this
    simpa using this

/-- Concrete two-family table used to witness the batcher theorem. -/
def c1rows : List LangRow :=
  [⟨"Spanish", some "Indo-European", some "Romance", some "Romance",
      "40.0", "-4.0", some "ES", some "spa", some "Eurasia", "spa"⟩,
   ⟨"French", some "Indo-European", some "Romance", some "Romance",
      "48.0", "2.0", some "FR", some "fra", some "Eurasia", "fre"⟩,
   ⟨"Basque", some "Isolate", none, some "Basque",
      "43.0", "-2.0", some "ES", some "eus", some "Eurasia", "bsq"⟩]

/-! ## src/wals.py — WALSDataProcessor._create_chunk_content (Chunk Renderer) -/

/-- One row of `data/values.csv` (only the columns the code reads). -/
structure ValueRow where
  Language_ID : String
  Parameter_ID : String
  Code_ID : String
deriving DecidableEq, Repr

/-- One row of `data/codes.csv` (only the columns the code reads). -/
structure CodeRow where
  ID : String
  Name : String
deriving DecidableEq, Repr

/-- The `self.data` dictionary of WALSDataProcessor, restricted to the
entries the renderer consults.  `parameters` is only ever tested for
presence (`'parameters' in self.data`), never read, so it is modelled by
presence alone. -/
structure WalsData where
  values : Option (List ValueRow)
  codes : Option (List CodeRow)
  parameters : Option Unit
deriving DecidableEq, Repr

/-- The whole processor state visible to the renderer; `languages`,
`output_dir` and `data_dir` exist on the object but are not read by
`_create_chunk_content`. -/
structure WALSDataProcessor where
  data : WalsData
  languages : List LangRow
  output_dir : String
  data_dir : String
deriving DecidableEq, Repr

/-- `WALSDataProcessor._get_feature_value(language_id, parameter_id)`:
first matching row of values.csv, then the name of its code. -/
def get_feature_value (values : List ValueRow) (codes : List CodeRow)
    (langId paramId : String) : Option String :=
  match (values.filter (fun v => v.Language_ID == langId && v.Parameter_ID == paramId)).head? with
  | none => none
  | some v0 => ((codes.filter (fun c => c.ID == v0.Code_ID)).head?).map (fun c => c.Name)

/-- The parameter table iterated by `_get_linguistic_features`
(insertion order of the Python dict, preceded by the hard-coded 81A). -/
def feature_params : List (String × String) :=
  [("81A", "Word Order"), ("82A", "Subject-Verb Order"), ("83A", "Object-Verb Order"),
   ("85A", "Adposition-Noun Order"), ("86A", "Genitive-Noun Order"),
   ("87A", "Adjective-Noun Order")]

/-- `if value:` — appending a feature line only for a truthy (non-empty)
looked-up value. -/
def featureLines (values : List ValueRow) (codes : List CodeRow) (langId : String) :
    List String :=
  feature_params.foldl
    (fun acc p =>
      match get_feature_value values codes langId p.1 with
      | some v => if v ≠ "" then acc ++ ["- " ++ p.2 ++ ": " ++ v] else acc
      | none => acc)
    []

/-- `WALSDataProcessor._get_linguistic_features(language)`. -/
def get_linguistic_features (d : WalsData) (lang : LangRow) : String :=
  match d.values, d.codes with
  | some vs, some cs =>
    let feats := featureLines vs cs lang.ID
    if feats ≠ [] then "\n" ++ String.intercalate "\n" feats
    else "\n- Linguistic features: Available in WALS database"
  | _, _ => ""

/-- The country-code table hard-coded in `generate_chunks` and passed to
the renderer. -/
def country_names : List (String × String) :=
  [("ID", "Indonesia"), ("US", "United States"), ("CA", "Canada"), ("AU", "Australia"),
   ("IN", "India"), ("CN", "China"), ("BR", "Brazil"), ("AR", "Argentina")]

/-- The per-language block of the chunk (the `lang_entry` f-string). -/
def langEntry (d : WalsData) (cn : List (String × String)) (r : LangRow) : String :=
  let family := r.Family.getD "nan"
  let subfamily := r.Subfamily.getD "nan"
  let genus := r.Genus.getD "nan"
  let country_id := r.Country_ID.getD "nan"
  let country_name := ((cn.lookup country_id).getD country_id)
  let iso_code := r.ISO639P3code.getD "nan"
  let macroarea := r.Macroarea.getD "nan"
  let feature_info :=
    if d.values.isSome && d.parameters.isSome then get_linguistic_features d r else ""
  "\nLanguage: " ++ r.Name
    ++ "\n- Family: " ++ family
    ++ "\n- Subfamily: " ++ subfamily
    ++ "\n- Genus: " ++ genus
    ++ "\n- Coordinates: " ++ r.Latitude ++ ", " ++ r.Longitude
    ++ "\n- Country: " ++ country_name
    ++ "\n- ISO Code: " ++ iso_code
    ++ "\n- Macroarea: " ++ macroarea
    ++ "\n" ++ feature_info ++ "\n"

/-- The closing relationship-hint block of every chunk, without its
surrounding newlines (which `.strip()` interacts with). -/
def relBlock (family_name : String) : String :=
  "=== RELATIONSHIPS TO EXTRACT ===\n- Each " ++ family_name
    ++ " language BELONGS_TO " ++ family_name
    ++ "Family\n- Each language LOCATED_IN its country (if country specified)"
    ++ "\n- Languages of same subfamily form SUBFAMILY_OF relationships"
    ++ "\n- Languages in same macroarea form MACROAREA_OF relationships"
    ++ "\n- Create Country entities with proper names"
    ++ "\n- Create LanguageFamily entities for linguistic classification"

/-- The header block of a chunk. -/
def chunkHeader (family_name : String) (chunk_num batch_len : Nat) : String :=
  "\nLINGUISTIC KNOWLEDGE GRAPH DATA - CHUNK " ++ toString chunk_num
    ++ ":\n\nFamily: " ++ family_name
    ++ "\nLanguages in this chunk: " ++ toString batch_len
    ++ "\n\n=== DETAILED LANGUAGE INFORMATION ===\n"

/-- The `for _, lang in languages_batch.iterrows(): chunk_text +=
lang_entry` accumulation loop. -/
def strJoin : List String → String
  | [] => ""
  | s :: rest => s ++ strJoin rest

/-- `WALSDataProcessor._create_chunk_content(languages_batch, family_name,
chunk_num, country_names)`: header, one entry per record, relationship
hints, and a final `.strip()`. -/
def create_chunk_content (p : WALSDataProcessor) (batch : List LangRow)
    (family_name : String) (chunk_num : Nat) (cn : List (String × String)) : String :=
  pyStrip (chunkHeader family_name chunk_num batch.length
    ++ strJoin (batch.map (langEntry p.data cn))
    ++ "\n" ++ relBlock family_name ++ "\n")

/-! ### String-level lemmas for the renderer -/

theorem str_data_append (a b : String) : (a ++ b).data = a.data ++ b.data := rfl

theorem str_ext {a b : String} (h : a.data = b.data) : a = b := by
  cases a; cases b
  exact congrArg String.mk h

theorem str_mk_data (s : String) : (⟨s.data⟩ : String) = s := by cases s; rfl

theorem str_append_assoc (a b c : String) : a ++ b ++ c = a ++ (b ++ c) := by
  apply str_ext
  simp [str_data_append]

theorem strJoin_append (a b : List String) :
    strJoin (a ++ b) = strJoin a ++ strJoin b := by
  induction a with
  | nil =>
    apply str_ext
    simp [strJoin, str_data_append]
  | cons s t ih =>
    rw [List.cons_append]
    show s ++ strJoin (t ++ b) = (s ++ strJoin t) ++ strJoin b
    rw [ih, str_append_assoc]

theorem head_append_left {α : Type} {a : List α} (b : List α) {x : α}
    (h : a.head? = some x) : (a ++ b).head? = some x := by
  cases a <;> simp_all

theorem last_append_right {α : Type} (a : List α) {b : List α} {x : α}
    (h : b.getLast? = some x) : (a ++ b).getLast? = some x := by
  have hb : b.reverse.head? = some x := by rw [List.head?_reverse]; exact h
  have : (a ++ b).reverse.head? = some x := by
    rw [List.reverse_append]
    exact head_append_left _ hb
  rw [List.head?_reverse] at this
  exact this

theorem dropWhile_eq_self_of_head {l : List Char} {x : Char}
    (h : l.head? = some x) (hx : pyWs x = false) : l.dropWhile pyWs = l := by
  cases l with
  | nil => simp at h
  | cons y t =>
    simp only [List.head?_cons, Option.some.injEq] at h
    subst h
    simp [List.dropWhile_cons, hx]

/-- The shape `.strip()` takes on every rendered chunk: the text starts
with a newline followed by a non-whitespace character and ends with a
non-whitespace character followed by a newline, so stripping removes
exactly the outer newlines. -/
theorem pyStrip_master (l : List Char) (x c : Char) (hx : pyWs x = false)
    (hc : pyWs c = false) (hhead : l.head? = some x) (hlast : l.getLast? = some c) :
    pyStrip ⟨'\n' :: (l ++ ['\n'])⟩ = ⟨l⟩ := by
  unfold pyStrip
  have hnl : pyWs '\n' = true := rfl
  have h1 : (('\n' :: (l ++ ['\n'])).dropWhile pyWs) = l ++ ['\n'] := by
    rw [List.dropWhile_cons_of_pos (by simp [hnl])]
    exact dropWhile_eq_self_of_head (head_append_left _ hhead) hx
  have h2 : (l ++ ['\n']).reverse = '\n' :: l.reverse := by
    simp [List.reverse_append]
  have h3 : l.reverse.head? = some c := by rw [List.head?_reverse]; exact hlast
  have h4 : (('\n' :: l.reverse).dropWhile pyWs) = l.reverse := by
    rw [List.dropWhile_cons_of_pos (by simp [hnl])]
    exact dropWhile_eq_self_of_head h3 hc
  congr 1
  show ((('\n' :: (l ++ ['\n'])).dropWhile pyWs).reverse.dropWhile pyWs).reverse = l
  rw [h1, h2, h4, List.reverse_reverse]

theorem pyStrip_congr {s t : String} (h : s.data = t.data) : pyStrip s = pyStrip t := by
  unfold pyStrip
  rw [h]

/-- The chunk header without its leading newline. -/
def chunkHeaderTail (family_name : String) (chunk_num batch_len : Nat) : String :=
  "LINGUISTIC KNOWLEDGE GRAPH DATA - CHUNK " ++ toString chunk_num
    ++ ":\n\nFamily: " ++ family_name
    ++ "\nLanguages in this chunk: " ++ toString batch_len
    ++ "\n\n=== DETAILED LANGUAGE INFORMATION ===\n"

theorem chunkHeader_data (family_name : String) (chunk_num batch_len : Nat) :
    (chunkHeader family_name chunk_num batch_len).data
      = '\n' :: (chunkHeaderTail family_name chunk_num batch_len).data := by
  unfold chunkHeader chunkHeaderTail
  have hlit : ("\nLINGUISTIC KNOWLEDGE GRAPH DATA - CHUNK " : String).data
      = '\n' :: ("LINGUISTIC KNOWLEDGE GRAPH DATA - CHUNK " : String).data := rfl
  simp [str_data_append, hlit]

theorem chunkHeaderTail_head (family_name : String) (chunk_num batch_len : Nat) :
    (chunkHeaderTail family_name chunk_num batch_len).data.head? = some 'L' := by
  unfold chunkHeaderTail
  simp only [str_data_append]
  exact head_append_left _ (by rfl)

theorem relBlock_last (family_name : String) :
    (relBlock family_name).data.getLast? = some 'n' := by
  unfold relBlock
  simp only [str_data_append, List.append_assoc]
  refine last_append_right _ ?_
  refine last_append_right _ ?_
  refine last_append_right _ ?_
  refine last_append_right _ ?_
  refine last_append_right _ ?_
  refine last_append_right _ ?_
  rfl

/-- Closed form of the renderer: the trailing `.strip()` removes exactly
the leading newline of the header and the trailing newline after the
relationship block. -/
theorem create_chunk_content_decomp (p : WALSDataProcessor) (batch : List LangRow)
    (family_name : String) (chunk_num : Nat) (cn : List (String × String)) :
    create_chunk_content p batch family_name chunk_num cn
      = chunkHeaderTail family_name chunk_num batch.length
        ++ strJoin (batch.map (langEntry p.data cn))
        ++ "\n" ++ relBlock family_name := by
  unfold create_chunk_content
  set M : String := chunkHeaderTail family_name chunk_num batch.length
    ++ strJoin (batch.map (langEntry p.data cn)) ++ "\n" ++ relBlock family_name with hM
  have harg : (chunkHeader family_name chunk_num batch.length
      ++ strJoin (batch.map (langEntry p.data cn))
      ++ "\n" ++ relBlock family_name ++ "\n").data = '\n' :: (M.data ++ ['\n']) := by
    rw [hM]
    simp [str_data_append, chunkHeader_data]
  rw [pyStrip_congr harg]
  have hhead : M.data.head? = some 'L' := by
    rw [hM]
    simp only [str_data_append, List.append_assoc]
    exact head_append_left _ (chunkHeaderTail_head family_name chunk_num batch.length)
  have hlast : M.data.getLast? = some 'n' := by
    rw [hM]
    simp only [str_data_append, List.append_assoc]
    exact last_append_right _ (last_append_right _ (last_append_right _ (relBlock_last family_name)))
  rw [pyStrip_master M.data 'L' 'n' rfl rfl hhead hlast, str_mk_data]

theorem langEntry_split (d : WalsData) (cn : List (String × String)) (r : LangRow) :
    ∃ tail : String,
      langEntry d cn r = ("\nLanguage: " ++ r.Name ++ "\n") ++ tail := by
  refine ⟨"- Family: " ++ r.Family.getD "nan"
    ++ "\n- Subfamily: " ++ r.Subfamily.getD "nan"
    ++ "\n- Genus: " ++ r.Genus.getD "nan"
    ++ "\n- Coordinates: " ++ r.Latitude ++ ", " ++ r.Longitude
    ++ "\n- Country: " ++ ((cn.lookup (r.Country_ID.getD "nan")).getD (r.Country_ID.getD "nan"))
    ++ "\n- ISO Code: " ++ r.ISO639P3code.getD "nan"
    ++ "\n- Macroarea: " ++ r.Macroarea.getD "nan"
    ++ "\n"
    ++ (if d.values.isSome && d.parameters.isSome then get_linguistic_features d r else "")
    ++ "\n", ?_⟩
  simp only [langEntry]
  apply str_ext
  have hfam : ("\n- Family: " : String).data = '\n' :: ("- Family: " : String).data := rfl
  simp [str_data_append, hfam]

/-- C3: the Chunk Renderer is a pure function of its declared inputs.
`_create_chunk_content` (with its `_get_linguistic_features` lookups)
reads only the `values` and `codes` tables and the presence of the
`parameters` table from processor state: two processors agreeing on
those produce byte-identical text for every batch, family label, chunk
number and country table, regardless of any other state (loaded
languages table, output/data directories).  Determinism and absence of
I/O and mutation hold by construction: the embedding of the renderer is
a total function on values. -/
theorem create_chunk_content_pure (p q : WALSDataProcessor) (batch : List LangRow)
    (family_name : String) (chunk_num : Nat) (cn : List (String × String))
    (hv : p.data.values = q.data.values) (hc : p.data.codes = q.data.codes)
    (hpar : p.data.parameters.isSome = q.data.parameters.isSome) :
    create_chunk_content p batch family_name chunk_num cn
      = create_chunk_content q batch family_name chunk_num cn := by
  have hglf : ∀ r, get_linguistic_features p.data r = get_linguistic_features q.data r := by
    intro r
    unfold get_linguistic_features
    rw [hv, hc]
  have hisv : p.data.values.isSome = q.data.values.isSome := by rw [hv]
  have hentry : langEntry p.data cn = langEntry q.data cn := by
    funext r
    simp only [langEntry]
    rw [hglf r, hisv, hpar]
  unfold create_chunk_content
  rw [hentry]

/-- Concrete WALS feature data for witnesses. -/
def procData : WalsData :=
  ⟨some [⟨"spa", "81A", "81A-2"⟩], some [⟨"81A-2", "SVO"⟩], some ()⟩

/-- Two processor states agreeing on the renderer-relevant data but
differing in loaded table and directories. -/
def procA : WALSDataProcessor := ⟨procData, c1rows, "output", "data"⟩

def procB : WALSDataProcessor := ⟨procData, [], "elsewhere", "data2"⟩

theorem create_chunk_content_pure_witness :
    procA.data.values = procB.data.values ∧ procA.data.codes = procB.data.codes
    ∧ procA.data.parameters.isSome = procB.data.parameters.isSome
    ∧ create_chunk_content procA c1rows "Indo-European" 1 country_names
        = create_chunk_content procB c1rows "Indo-European" 1 country_names :=
  ⟨rfl, rfl, rfl,
    create_chunk_content_pure procA procB c1rows "Indo-European" 1 country_names rfl rfl rfl⟩

/-- C9: every rendered chunk contains each record's Name on a
"Language: " line, and ends with the relationship-hint block headed
"=== RELATIONSHIPS TO EXTRACT ===" with the family label substituted
into the BELONGS_TO and LOCATED_IN lines (see `relBlock`). -/
theorem chunk_contains_names_and_relblock (p : WALSDataProcessor) (batch : List LangRow)
    (family_name : String) (chunk_num : Nat) (cn : List (String × String))
    (hb : batch ≠ []) :
    (∀ r ∈ batch, ∃ pre post : String,
        create_chunk_content p batch family_name chunk_num cn
          = pre ++ ("\nLanguage: " ++ r.Name ++ "\n") ++ post)
    ∧ ∃ pre : String,
        create_chunk_content p batch family_name chunk_num cn
          = pre ++ relBlock family_name := by
  constructor
  · intro r hr
    obtain ⟨l1, l2, hsplit⟩ := List.append_of_mem hr
    obtain ⟨tail, htail⟩ := langEntry_split p.data cn r
    refine ⟨chunkHeaderTail family_name chunk_num batch.length
        ++ strJoin (l1.map (langEntry p.data cn)),
      tail ++ strJoin (l2.map (langEntry p.data cn)) ++ "\n" ++ relBlock family_name, ?_⟩
    rw [create_chunk_content_decomp, hsplit, List.map_append, List.map_cons,
      strJoin_append]
    have hcons : strJoin (langEntry p.data cn r :: l2.map (langEntry p.data cn))
        = langEntry p.data cn r ++ strJoin (l2.map (langEntry p.data cn)) := rfl
    rw [hcons, htail, ← hsplit]
    apply str_ext
    simp [str_data_append]
  · refine ⟨chunkHeaderTail family_name chunk_num batch.length
      ++ strJoin (batch.map (langEntry p.data cn)) ++ "\n", ?_⟩
    rw [create_chunk_content_decomp]

theorem chunk_contains_names_and_relblock_witness :
    c1rows ≠ []
    ∧ ((∀ r ∈ c1rows, ∃ pre post : String,
        create_chunk_content procA c1rows "Romance" 3 country_names
          = pre ++ ("\nLanguage: " ++ r.Name ++ "\n") ++ post)
    ∧ ∃ pre : String,
        create_chunk_content procA c1rows "Romance" 3 country_names
          = pre ++ relBlock "Romance") :=
  ⟨by decide,
    chunk_contains_names_and_relblock procA c1rows "Romance" 3 country_names (by decide)⟩

/-! ### Claim theorems for the batcher -/

theorem generate_chunks_correct_witness :
    1 ≤ 2
    ∧ ((∀ f : String,
      ((generate_chunks 2 c1rows).filter (fun p => p.1 == f)).flatMap (fun p => p.2)
        = c1rows.filter (fun r => r.Family == some f))
    ∧ ∀ p ∈ generate_chunks 2 c1rows,
        p.2 ≠ [] ∧ p.2.length ≤ 2 ∧ ∀ r ∈ p.2, r.Family = some p.1) :=
  ⟨by decide, generate_chunks_correct 2 c1rows (by decide)⟩

/-- C2 (code evidence): a table holding a single record whose Family is
null yields NO chunks at all — pandas `groupby('Family')` with its
default `dropna=True` silently discards NaN keys, so the
`"UnknownFamily"` relabelling branch of `generate_chunks` is dead code
and null-family records are dropped rather than batched. -/
theorem generate_chunks_drops_null_family :
    generate_chunks 10
      [⟨"Warao", none, none, some "Warao", "9.0", "-62.0", some "VE",
        some "wba", some "South America", "wra"⟩] = [] := by rfl

/-! ## src/graph_explorer.py — GraphExplorer._handle_family_query

The database reached by the family queries is modelled by the Language
nodes with the properties those queries read (id, family, genus); a
missing property is `none` and never satisfies an equality or CONTAINS
filter, as in Cypher.  `query_cypher_silent` with `ORDER BY l.id ...
LIMIT 20` is modelled by filtering, sorting the returned ids and taking
the first 20. -/

structure DBLang where
  id : String
  family : Option String
  genus : Option String
deriving DecidableEq, Repr

/-- The static `family_mappings` alias table (insertion order). -/
def family_mappings : List (String × String) :=
  [("indoeuropeo", "Indo-European"), ("indoeuropean", "Indo-European"),
   ("indo-european", "Indo-European"), ("indoeuropea", "Indo-European"),
   ("romance", "Romance"), ("romances", "Romance"),
   ("románico", "Romance"), ("románicas", "Romance"),
   ("germanic", "Germanic"), ("germanico", "Germanic"),
   ("germánico", "Germanic"), ("germánicas", "Germanic"),
   ("nigercongoese", "Niger-Congo"), ("nigercongo", "Niger-Congo"),
   ("niger-congo", "Niger-Congo"),
   ("afroasiatic", "Afro-Asiatic"), ("afro-asiatic", "Afro-Asiatic"),
   ("afroasiático", "Afro-Asiatic"),
   ("sinotibetan", "Sino-Tibetan"), ("sino-tibetan", "Sino-Tibetan"),
   ("sino-tibetano", "Sino-Tibetan"),
   ("austronesian", "Austronesian"), ("austronesio", "Austronesian"),
   ("austronésico", "Austronesian"),
   ("semitic", "Semitic"), ("semítico", "Semitic"),
   ("bantu", "Bantu"), ("bantú", "Bantu"),
   ("celtic", "Celtic"), ("céltico", "Celtic"),
   ("slavic", "Slavic"), ("eslavo", "Slavic")]

/-- `MATCH (l:Language) WHERE l.genus = '{v}' RETURN l.id ORDER BY l.id LIMIT 20`. -/
def runGenusEq (db : List DBLang) (v : String) : List String :=
  (sortKeys ((db.filter (fun l => l.genus == some v)).map (fun l => l.id))).take 20

/-- `MATCH (l:Language) WHERE l.family = '{v}' RETURN l.id ORDER BY l.id LIMIT 20`. -/
def runFamilyEq (db : List DBLang) (v : String) : List String :=
  (sortKeys ((db.filter (fun l => l.family == some v)).map (fun l => l.id))).take 20

/-- `WHERE LOWER(l.family) CONTAINS LOWER('{family_name}')`. -/
def runFamilyContains (db : List DBLang) (q : String) : List String :=
  (sortKeys ((db.filter (fun l =>
    match l.family with
    | some f => strContainsCI f q
    | none => false)).map (fun l => l.id))).take 20

/-- `WHERE LOWER(l.genus) CONTAINS LOWER('{family_name}')`. -/
def runGenusContains (db : List DBLang) (q : String) : List String :=
  (sortKeys ((db.filter (fun l =>
    match l.genus with
    | some g => strContainsCI g q
    | none => false)).map (fun l => l.id))).take 20

/-- The observable outcome of `_handle_family_query`, one constructor per
distinct success/failure branch of the code. -/
inductive FamilyQueryOutcome where
  | foundMappedGenus (mapped : String) (langs : List String)
  | foundMappedFamily (mapped : String) (langs : List String)
  | foundFamilyContains (langs : List String)
  | foundGenusContains (langs : List String)
  | notFound
deriving DecidableEq, Repr

/-- The "Try original name with flexible matching" part of
`_handle_family_query`: family CONTAINS, then genus CONTAINS, else the
not-found message. -/
def fallbackFamilyQuery (db : List DBLang) (family_name : String) : FamilyQueryOutcome :=
  if runFamilyContains db family_name ≠ [] then
    .foundFamilyContains (runFamilyContains db family_name)
  else if runGenusContains db family_name ≠ [] then
    .foundGenusContains (runGenusContains db family_name)
  else .notFound

/-- `GraphExplorer._handle_family_query(family_name)`: look the
lower-cased, stripped input up in the alias table; on a hit run the
genus-equality then family-equality queries on the mapped name; if both
are empty (or there was no alias hit) fall back to case-insensitive
containment on the raw input. -/
def handle_family_query (db : List DBLang) (family_name : String) : FamilyQueryOutcome :=
  match family_mappings.lookup (pyStrip (pyLower family_name)) with
  | some mapped =>
    if runGenusEq db mapped ≠ [] then .foundMappedGenus mapped (runGenusEq db mapped)
    else if runFamilyEq db mapped ≠ [] then
      .foundMappedFamily mapped (runFamilyEq db mapped)
    else fallbackFamilyQuery db family_name
  | none => fallbackFamilyQuery db family_name

/-- The ordered list of strategies the code consults, written from the
spec's words ("trying in order ... first nonempty match wins") to be
compared with the code's cascade. -/
def familyStrategies (db : List DBLang) (family_name : String) : List (List String) :=
  (match family_mappings.lookup (pyStrip (pyLower family_name)) with
   | some mapped => [runGenusEq db mapped, runFamilyEq db mapped]
   | none => [])
  ++ [runFamilyContains db family_name, runGenusContains db family_name]

/-- Spec-side: the result of the first strategy with a non-empty result. -/
def firstNonempty (l : List (List String)) : Option (List String) :=
  l.find? (fun x => !x.isEmpty)

/-- The language list an outcome reports, `none` for "not found". -/
def langsOf : FamilyQueryOutcome → Option (List String)
  | .foundMappedGenus _ l => some l
  | .foundMappedFamily _ l => some l
  | .foundFamilyContains l => some l
  | .foundGenusContains l => some l
  | .notFound => none

theorem isEmpty_false_of_ne {α : Type} {l : List α} (h : l ≠ []) : l.isEmpty = false := by
  cases l with
  | nil => exact absurd rfl h
  | cons a t => rfl

theorem firstNonempty_cons (a : List String) (rest : List (List String)) :
    firstNonempty (a :: rest) = if a = [] then firstNonempty rest else some a := by
  unfold firstNonempty
  by_cases ha : a = []
  · subst ha
    simp [List.find?]
  · rw [if_neg ha, List.find?_cons, isEmpty_false_of_ne ha]
    rfl

theorem fallback_langs (db : List DBLang) (q : String) :
    langsOf (fallbackFamilyQuery db q)
      = firstNonempty [runFamilyContains db q, runGenusContains db q] := by
  unfold fallbackFamilyQuery
  rw [firstNonempty_cons, firstNonempty_cons]
  by_cases hf : runFamilyContains db q = []
  · by_cases hg : runGenusContains db q = []
    · simp [hf, hg, langsOf, firstNonempty, List.find?]
    · simp [hf, hg, langsOf]
  · simp [hf, langsOf]

/-- C4: resolving "románico" hits the static alias table first and
proceeds with the canonical identifier "Romance"; an input missing from
the alias table whose text substring-matches no stored family or genus
is reported not found; and in general the outcome is the first
non-empty result in strategy order — later strategies are not
consulted. -/
theorem handle_family_query_correct :
    family_mappings.lookup (pyStrip (pyLower "románico")) = some "Romance"
    ∧ (∀ db : List DBLang, runGenusEq db "Romance" ≠ [] →
        handle_family_query db "románico"
          = .foundMappedGenus "Romance" (runGenusEq db "Romance"))
    ∧ (∀ (db : List DBLang) (q : String),
        family_mappings.lookup (pyStrip (pyLower q)) = none →
        runFamilyContains db q = [] → runGenusContains db q = [] →
        handle_family_query db q = .notFound)
    ∧ (∀ (db : List DBLang) (q : String),
        langsOf (handle_family_query db q) = firstNonempty (familyStrategies db q)) := by
  have hrom : family_mappings.lookup (pyStrip (pyLower "románico")) = some "Romance" := by
    rfl
  refine ⟨hrom, ?_, ?_, ?_⟩
  · intro db hg
    unfold handle_family_query
    simp only [hrom, if_pos hg]
  · intro db q hnone hf hg
    unfold handle_family_query
    simp only [hnone]
    unfold fallbackFamilyQuery
    simp [hf, hg]
  · intro db q
    unfold handle_family_query familyStrategies
    cases hm : family_mappings.lookup (pyStrip (pyLower q)) with
    | none =>
      rw [List.nil_append]
      exact fallback_langs db q
    | some mapped =>
      rw [List.cons_append, List.cons_append, List.nil_append,
        firstNonempty_cons, firstNonempty_cons]
      by_cases hge : runGenusEq db mapped = []
      · by_cases hfe : runFamilyEq db mapped = []
        · simp only [hge, not_true, if_false, hfe, if_true, ite_true]
          simpa [hge, hfe] using fallback_langs db q
        · simp [hge, hfe, langsOf]
      · simp [hge, langsOf]

/-- A one-language database used to witness the family-query theorem. -/
def dbW : List DBLang := [⟨"French", some "Indo-European", some "Romance"⟩]

theorem handle_family_query_correct_witness :
    (runGenusEq dbW "Romance" ≠ []
      ∧ handle_family_query dbW "románico"
          = .foundMappedGenus "Romance" (runGenusEq dbW "Romance"))
    ∧ (family_mappings.lookup (pyStrip (pyLower "Zyxw")) = none
      ∧ runFamilyContains dbW "Zyxw" = []
      ∧ runGenusContains dbW "Zyxw" = []
      ∧ handle_family_query dbW "Zyxw" = .notFound) :=
  ⟨⟨by decide, handle_family_query_correct.2.1 dbW (by decide)⟩,
   ⟨by decide, by decide, by decide,
    handle_family_query_correct.2.2.1 dbW "Zyxw" (by decide) (by decide) (by decide)⟩⟩

/-! ## src/retrieve_and_query.py — query_and_synthesize, and
GraphExplorer.query_natural_language

The outcome of `cypher_chain.invoke({"query": question})` is modelled as
an `Except`: `.error e` for a raised exception (translation or execution
failure), `.ok r` for a returned result dictionary. -/

/-- The fields of the chain's result dictionary that the code reads:
`result.get('result', ...)` and the `intermediate_steps` list of step
dictionaries. -/
structure InvokeResult where
  result : Option String
  intermediate_steps : Option (List (List (String × String)))
deriving DecidableEq, Repr

/-- `result.get('result', 'No answer found')`. -/
def extractAnswer (r : InvokeResult) : String := r.result.getD "No answer found"

/-- `for step in result['intermediate_steps']: if 'query' in step:
cypher_query = step['query']; break`. -/
def extractCypher (r : InvokeResult) : Option String :=
  match r.intermediate_steps with
  | none => none
  | some steps =>
    (steps.find? (fun st => (st.find? (fun kv => kv.1 == "query")).isSome)).bind
      (fun st => (st.find? (fun kv => kv.1 == "query")).map (fun kv => kv.2))

/-- `query_and_synthesize(query, cypher_chain)`: the whole body is inside
`try`, and the `except` arm returns the error string. -/
def query_and_synthesize (invoke : Except String InvokeResult) : String :=
  match invoke with
  | .ok r => extractAnswer r
  | .error e => "Error processing query: " ++ e

/-- The dictionary `query_natural_language` returns on success. -/
structure NLQueryResult where
  answer : String
  cypher : Option String
  raw : InvokeResult
deriving DecidableEq, Repr

/-- `GraphExplorer.query_natural_language(question)`: `None` without a
graph connection or QA chain, `None` from the `except` arm on any raised
error, otherwise the answer/cypher/raw dictionary. -/
def query_natural_language (graphConnected qaChainReady : Bool)
    (invoke : Except String InvokeResult) : Option NLQueryResult :=
  if !graphConnected then none
  else if !qaChainReady then none
  else
    match invoke with
    | .error _ => none
    | .ok r => some ⟨extractAnswer r, extractCypher r, r⟩

/-- C6: the query translator never raises past its boundary.
`query_and_synthesize` maps every raised error to the error string and
every result dictionary to an answer string; `query_natural_language`
maps every raised error (and every missing-connection state) to `None`
and every successful invocation to a result dictionary. -/
theorem query_error_boundary :
    (∀ e : String, query_and_synthesize (.error e) = "Error processing query: " ++ e)
    ∧ (∀ r : InvokeResult, query_and_synthesize (.ok r) = r.result.getD "No answer found")
    ∧ (∀ (g c : Bool) (e : String), query_natural_language g c (.error e) = none)
    ∧ (∀ (c : Bool) (invoke : Except String InvokeResult),
        query_natural_language false c invoke = none)
    ∧ (∀ (g : Bool) (invoke : Except String InvokeResult),
        query_natural_language g false invoke = none)
    ∧ (∀ r : InvokeResult,
        query_natural_language true true (.ok r)
          = some ⟨extractAnswer r, extractCypher r, r⟩) := by
  refine ⟨fun e => rfl, fun r => rfl, ?_, ?_, ?_, fun r => rfl⟩
  · intro g c e
    cases g <;> cases c <;> rfl
  · intro c invoke
    rfl
  · intro g invoke
    cases g <;> rfl

/-! ## src/graph_builder.py — GraphBuilder._fix_entity_ids and
GraphBuilder.build_from_chunks

An extracted node is inspected by the code only through `node.id` and
`str(node.properties)`, so properties are modelled by their string
form.  Python's `hash` is an unspecified integer function, modelled by
an arbitrary parameter `h`; `% 10000` is `Int.emod`, which agrees with
Python's `%` for a positive modulus. -/

structure ExtractedNode where
  id : String
  properties : String
deriving DecidableEq, Repr

structure GraphDoc where
  nodes : List ExtractedNode
  relationships : List (String × String × String)
deriving DecidableEq, Repr

/-- `any(prop in str(node.properties).lower() for prop in
['indonesia', 'indonesian'])`. -/
def indonesiaHit (props : String) : Bool :=
  ["indonesia", "indonesian"].any (fun p => containsChars p.data (pyLower props).data)

/-- The per-node body of `_fix_entity_ids`. -/
def fix_node (h : String → Int) (n : ExtractedNode) : ExtractedNode :=
  if n.id = "ID" then
    if indonesiaHit n.properties then { n with id := "Indonesia_Country" }
    else { n with id := "Entity_ID_" ++ toString ((h n.properties).emod 10000) }
  else n

/-- `GraphBuilder._fix_entity_ids(graph_documents)`. -/
def fix_entity_ids (h : String → Int) (docs : List GraphDoc) : List GraphDoc :=
  docs.map (fun d => { d with nodes := d.nodes.map (fix_node h) })

theorem fix_node_props (h : String → Int) (n : ExtractedNode) :
    (fix_node h n).properties = n.properties := by
  unfold fix_node
  by_cases h1 : n.id = "ID"
  · rw [if_pos h1]
    by_cases h2 : indonesiaHit n.properties <;> simp [h2]
  · rw [if_neg h1]

theorem fix_node_skip (h : String → Int) (n : ExtractedNode) (hne : n.id ≠ "ID") :
    fix_node h n = n := by
  unfold fix_node
  rw [if_neg hne]

theorem fix_node_no_ID (h : String → Int) (n : ExtractedNode) :
    (fix_node h n).id ≠ "ID" ∨ n.id ≠ "ID" := by
  by_cases h1 : n.id = "ID"
  · left
    unfold fix_node
    rw [if_pos h1]
    by_cases h2 : indonesiaHit n.properties
    · rw [if_pos h2]
      intro hcontra
      have hlit : ("Indonesia_Country" : String) = "ID" := hcontra
      exact absurd hlit (by decide)
    · rw [if_neg h2]
      intro hcontra
      have hlit : ("Entity_ID_" ++ toString ((h n.properties).emod 10000) : String)
          = "ID" := hcontra
      have hlen := congrArg String.length hlit
      rw [String.length_append] at hlen
      have h10 : ("Entity_ID_" : String).length = 10 := by decide
      have h2' : ("ID" : String).length = 2 := by decide
      rw [h10, h2'] at hlen
      omega
  · right; exact h1

/-- C8: after `_fix_entity_ids`, no node carries the literal id "ID":
an "ID" node whose stringified properties mention indonesia is renamed
"Indonesia_Country", any other "ID" node is renamed to "Entity_ID_"
followed by `hash(str(properties)) % 10000`, and no other node's id is
produced as "ID". -/
theorem fix_entity_ids_no_ID (h : String → Int) (docs : List GraphDoc) :
    (∀ d ∈ fix_entity_ids h docs, ∀ n ∈ d.nodes, n.id ≠ "ID")
    ∧ (∀ d ∈ docs, ∀ n ∈ d.nodes, n.id = "ID" →
        (indonesiaHit n.properties = true →
          fix_node h n = { n with id := "Indonesia_Country" })
        ∧ (indonesiaHit n.properties = false →
          fix_node h n
            = { n with id := "Entity_ID_" ++ toString ((h n.properties).emod 10000) })) := by
  constructor
  · intro d hd n hn
    unfold fix_entity_ids at hd
    rw [List.mem_map] at hd
    obtain ⟨d0, hd0, rfl⟩ := hd
    simp only [List.mem_map] at hn
    obtain ⟨n0, hn0, rfl⟩ := hn
    rcases fix_node_no_ID h n0 with hres | hid
    · exact hres
    · rw [fix_node_skip h n0 hid]
      exact hid
  · intro d hd n hn hID
    constructor
    · intro hindo
      unfold fix_node
      rw [if_pos hID, if_pos hindo]
    · intro hindo
      unfold fix_node
      rw [if_pos hID, if_neg (by simp [hindo])]

/-- Concrete graph document used to witness the `_fix_entity_ids`
theorems: one ambiguous "ID" node with Indonesian context, one without,
one ordinary node. -/
def docW0 : GraphDoc :=
  ⟨[⟨"ID", "(name: Indonesian archipelago)"⟩,
    ⟨"ID", "(name: something else)"⟩,
    ⟨"Arapaho", "(family: Algic)"⟩],
   [("Arapaho", "BELONGS_TO", "AlgicFamily")]⟩

def docsW : List GraphDoc := [docW0]

/-- A concrete stand-in for Python's `hash`. -/
def hashW : String → Int := fun s => - (s.length : Int)

theorem fix_entity_ids_no_ID_witness :
    (∀ d ∈ fix_entity_ids hashW docsW, ∀ n ∈ d.nodes, n.id ≠ "ID")
    ∧ (⟨"ID", "(name: Indonesian archipelago)"⟩ : ExtractedNode) ∈ docW0.nodes
    ∧ indonesiaHit "(name: Indonesian archipelago)" = true
    ∧ fix_node hashW ⟨"ID", "(name: Indonesian archipelago)"⟩
        = ⟨"Indonesia_Country", "(name: Indonesian archipelago)"⟩
    ∧ indonesiaHit "(name: something else)" = false
    ∧ fix_node hashW ⟨"ID", "(name: something else)"⟩
        = ⟨"Entity_ID_" ++ toString ((hashW "(name: something else)").emod 10000),
            "(name: something else)"⟩ :=
  ⟨(fix_entity_ids_no_ID hashW docsW).1,
   by decide,
   by decide,
   ((fix_entity_ids_no_ID hashW docsW).2 docW0 (by decide)
      ⟨"ID", "(name: Indonesian archipelago)"⟩ (by decide) rfl).1 (by decide),
   by decide,
   ((fix_entity_ids_no_ID hashW docsW).2 docW0 (by decide)
      ⟨"ID", "(name: something else)"⟩ (by decide) rfl).2 (by decide)⟩

/-- C10: `_fix_entity_ids` is a frame on everything except the ids of
"ID"-nodes: document count, each document's relationships and node
count, every node's properties, and every node whose id is not "ID" are
returned unchanged (the function returns the input list itself, mutated
only in those ids). -/
theorem fix_entity_ids_frame (h : String → Int) (docs : List GraphDoc) :
    (fix_entity_ids h docs).length = docs.length
    ∧ List.Forall₂ (fun d d' : GraphDoc =>
        d'.relationships = d.relationships
        ∧ d'.nodes.length = d.nodes.length
        ∧ List.Forall₂ (fun n n' : ExtractedNode =>
            n'.properties = n.properties ∧ (n.id ≠ "ID" → n' = n)) d.nodes d'.nodes)
      docs (fix_entity_ids h docs) := by
  constructor
  · unfold fix_entity_ids
    rw [List.length_map]
  · unfold fix_entity_ids
    induction docs with
    | nil => exact List.Forall₂.nil
    | cons d t ih =>
      rw [List.map_cons]
      refine List.Forall₂.cons ⟨rfl, by rw [List.length_map], ?_⟩ ih
      have hnodes : ∀ l : List ExtractedNode,
          List.Forall₂ (fun n n' : ExtractedNode =>
            n'.properties = n.properties ∧ (n.id ≠ "ID" → n' = n)) l (l.map (fix_node h)) := by
        intro l
        induction l with
        | nil => exact List.Forall₂.nil
        | cons n t2 ih2 =>
          rw [List.map_cons]
          exact List.Forall₂.cons ⟨fix_node_props h n, fix_node_skip h n⟩ ih2
      exact hnodes d.nodes

theorem fix_entity_ids_frame_witness :
    ((fix_entity_ids hashW docsW).length = docsW.length
    ∧ List.Forall₂ (fun d d' : GraphDoc =>
        d'.relationships = d.relationships
        ∧ d'.nodes.length = d.nodes.length
        ∧ List.Forall₂ (fun n n' : ExtractedNode =>
            n'.properties = n.properties ∧ (n.id ≠ "ID" → n' = n)) d.nodes d'.nodes)
      docsW (fix_entity_ids hashW docsW))
    ∧ fix_node hashW ⟨"Arapaho", "(family: Algic)"⟩ = ⟨"Arapaho", "(family: Algic)"⟩ :=
  ⟨fix_entity_ids_frame hashW docsW,
   fix_node_skip hashW ⟨"Arapaho", "(family: Algic)"⟩ (by decide)⟩

/-! ## src/graph_builder.py — GraphBuilder.build_from_chunks -/

/-- The outcome of processing one chunk file: `exn` for an exception
raised while reading the file or extracting graph documents (the outer
`try`), `extracted docs mergeOk` for a successful extraction whose
`add_graph_documents` merge either succeeds or raises (the inner
`try`). -/
inductive ChunkOutcome where
  | exn
  | extracted (docs : List GraphDoc) (mergeOk : Bool)
deriving DecidableEq, Repr

/-- The running totals of `build_from_chunks` plus the documents merged
into the graph so far. -/
structure BuildAcc where
  nodes : Nat
  rels : Nat
  merged : List GraphDoc
deriving DecidableEq, Repr

/-- One iteration of the `for chunk_file in chunk_files` loop: an
exception skips the chunk; extracted documents are id-fixed; an empty
document list or an empty first node set adds nothing; a failed merge
`continue`s, skipping the chunk; a successful merge adds the first
document's node and relationship counts to the totals. -/
def buildStep (h : String → Int) (acc : BuildAcc) (c : ChunkOutcome) : BuildAcc :=
  match c with
  | .exn => acc
  | .extracted docs mergeOk =>
    match fix_entity_ids h docs with
    | [] => acc
    | d0 :: rest =>
      if d0.nodes.isEmpty then acc
      else if mergeOk then
        { nodes := acc.nodes + d0.nodes.length,
          rels := acc.rels + d0.relationships.length,
          merged := acc.merged ++ (d0 :: rest) }
      else acc

/-- `GraphBuilder.build_from_chunks(chunk_files)` over the sequence of
per-chunk outcomes. -/
def build_from_chunks (h : String → Int) (chunks : List ChunkOutcome) : BuildAcc :=
  chunks.foldl (buildStep h) ⟨0, 0, []⟩

theorem buildStep_exn (h : String → Int) (acc : BuildAcc) : buildStep h acc .exn = acc := rfl

theorem buildStep_mergefail (h : String → Int) (acc : BuildAcc) (docs : List GraphDoc) :
    buildStep h acc (.extracted docs false) = acc := by
  simp only [buildStep]
  rcases hfix : fix_entity_ids h docs with _ | ⟨d0, rest⟩
  · rfl
  · by_cases hd : d0.nodes.isEmpty <;> simp [hd]

theorem buildStep_extend (h : String → Int) (acc : BuildAcc) (c : ChunkOutcome) :
    ∃ t0 : List GraphDoc, (buildStep h acc c).merged = acc.merged ++ t0
      ∧ acc.nodes ≤ (buildStep h acc c).nodes
      ∧ acc.rels ≤ (buildStep h acc c).rels := by
  cases c with
  | exn => exact ⟨[], by simp [buildStep_exn]⟩
  | extracted docs mergeOk =>
    simp only [buildStep]
    rcases hfix : fix_entity_ids h docs with _ | ⟨d0, rest⟩
    · exact ⟨[], by simp⟩
    · by_cases hd : d0.nodes.isEmpty
      · exact ⟨[], by simp [hd]⟩
      · cases mergeOk with
        | false => exact ⟨[], by simp [hd]⟩
        | true => exact ⟨d0 :: rest, by simp [hd]⟩

theorem build_fold_extend (h : String → Int) (cs : List ChunkOutcome) :
    ∀ acc : BuildAcc, ∃ tail : List GraphDoc,
      (cs.foldl (buildStep h) acc).merged = acc.merged ++ tail
      ∧ acc.nodes ≤ (cs.foldl (buildStep h) acc).nodes
      ∧ acc.rels ≤ (cs.foldl (buildStep h) acc).rels := by
  induction cs with
  | nil => exact fun acc => ⟨[], by simp⟩
  | cons c t ih =>
    intro acc
    obtain ⟨tail, h1, h2, h3⟩ := ih (buildStep h acc c)
    obtain ⟨t0, g1, g2, g3⟩ := buildStep_extend h acc c
    rw [List.foldl_cons]
    exact ⟨t0 ++ tail, by rw [h1, g1, List.append_assoc],
      le_trans g2 h2, le_trans g3 h3⟩

/-- C7: a chunk whose read/extraction raises, or whose merge raises, is
skipped — it contributes nothing to the totals or to the merged
documents, and the remaining chunks are processed exactly as if the
failing chunk were absent (no retry); and processing never removes the
effects of earlier chunks (counts only grow and the merged documents of
a prefix stay merged). -/
theorem build_from_chunks_skip (h : String → Int) (xs ys : List ChunkOutcome)
    (docs : List GraphDoc) :
    build_from_chunks h (xs ++ ChunkOutcome.exn :: ys) = build_from_chunks h (xs ++ ys)
    ∧ build_from_chunks h (xs ++ ChunkOutcome.extracted docs false :: ys)
        = build_from_chunks h (xs ++ ys)
    ∧ (∃ tail : List GraphDoc,
        (build_from_chunks h (xs ++ ys)).merged = (build_from_chunks h xs).merged ++ tail)
    ∧ (build_from_chunks h xs).nodes ≤ (build_from_chunks h (xs ++ ys)).nodes
    ∧ (build_from_chunks h xs).rels ≤ (build_from_chunks h (xs ++ ys)).rels := by
  unfold build_from_chunks
  obtain ⟨tail, h1, h2, h3⟩ := build_fold_extend h ys (xs.foldl (buildStep h) ⟨0, 0, []⟩)
  refine ⟨?_, ?_, ⟨tail, by rw [List.foldl_append]; exact h1⟩,
    by rw [List.foldl_append]; exact h2, by rw [List.foldl_append]; exact h3⟩
  · rw [List.foldl_append, List.foldl_append, List.foldl_cons, buildStep_exn]
  · rw [List.foldl_append, List.foldl_append, List.foldl_cons, buildStep_mergefail]

/-! ## src/graph_builder.py — Cypher graph-state model

`enrich_with_csv_data` and `complete_missing_languages` run templated
Cypher against Neo4j.  The store is modelled as a list of nodes (a node
has one label and a property list; its identity is its index) and a list
of edges (source index, relationship type, target index).  Statement
semantics:

  * a node pattern `(n:L {k1: v1, ...})` matches any node with label L
    whose properties contain every listed pair;
  * `MATCH` binds all matching nodes; `MERGE` of a node pattern creates
    one node carrying exactly the pattern's properties when no node
    matches, else binds all matching nodes;
  * `SET n.k = v` updates the property on every bound node;
  * `MERGE (a)-[:T]->(b)` adds the edge for every bound pair that does
    not already have one.

Nodes and edges are only ever appended, matching Cypher's behaviour for
these statements (the functions never DELETE). -/

structure GNode where
  label : String
  props : List (String × String)
deriving DecidableEq, Repr

structure GraphState where
  nodes : List GNode
  edges : List (Nat × String × Nat)
deriving DecidableEq, Repr

/-- Property lookup (first binding wins; the model never creates
duplicate keys in one node). -/
def lookupProp : List (String × String) → String → Option String
  | [], _ => none
  | kv :: rest, k => if kv.1 == k then some kv.2 else lookupProp rest k

/-- `(n:label {pat})` matches node `n`. -/
def nodeMatches (n : GNode) (label : String) (pat : List (String × String)) : Bool :=
  n.label == label && pat.all (fun kv => lookupProp n.props kv.1 == some kv.2)

/-- Indices of matching nodes, offset by `k`. -/
def idxsAux (pred : GNode → Bool) : List GNode → Nat → List Nat
  | [], _ => []
  | n :: rest, k => if pred n then k :: idxsAux pred rest (k + 1) else idxsAux pred rest (k + 1)

/-- All indices of nodes matching `(:label {pat})` — the bindings of a
`MATCH` clause. -/
def matchIdxs (s : GraphState) (label : String) (pat : List (String × String)) : List Nat :=
  idxsAux (fun n => nodeMatches n label pat) s.nodes 0

/-- `MERGE (n:label {pat})`: create the node if nothing matches, else
bind every match.  Returns the updated state and the bound indices. -/
def mergeNodeAll (s : GraphState) (label : String) (pat : List (String × String)) :
    GraphState × List Nat :=
  if matchIdxs s label pat = [] then
    ({ s with nodes := s.nodes ++ [⟨label, pat⟩] }, [s.nodes.length])
  else (s, matchIdxs s label pat)

/-- `SET n.k = v` on a property list: replace in place, else append. -/
def setProp : List (String × String) → String → String → List (String × String)
  | [], k, v => [(k, v)]
  | kv :: rest, k, v =>
    if kv.1 == k then (k, v) :: setProp rest k v else kv :: setProp rest k v

def applySets (props kvs : List (String × String)) : List (String × String) :=
  kvs.foldl (fun p kv => setProp p kv.1 kv.2) props

/-- `MATCH (n:label {pat}) SET n.k1 = v1, ...`: update every matching
node's properties. -/
def setAllMatching (s : GraphState) (label : String)
    (pat kvs : List (String × String)) : GraphState :=
  { s with nodes := s.nodes.map (fun n =>
      if nodeMatches n label pat then { n with props := applySets n.props kvs } else n) }

/-- `MERGE (a)-[:t]->(b)` for one bound pair. -/
def mergeEdge (s : GraphState) (a : Nat) (t : String) (b : Nat) : GraphState :=
  if (a, t, b) ∈ s.edges then s else { s with edges := s.edges ++ [(a, t, b)] }

/-- `MERGE (a)-[:t]->(b)` over all bound pairs. -/
def mergeEdges (s : GraphState) (ls : List Nat) (t : String) (rs : List Nat) : GraphState :=
  ls.foldl (fun acc a => rs.foldl (fun acc2 b => mergeEdge acc2 a t b) acc) s

/-! ### GraphBuilder.enrich_with_csv_data -/

/-- The country loop: `MERGE (c:Country {id: "...", name: "..."})` with
both values quote-escaped. -/
def enrichCountryStep (s : GraphState) (c : CountryRow) : GraphState :=
  (mergeNodeAll s "Country" [("id", esc c.ID), ("name", esc c.Name)]).1

/-- The language loop body of `enrich_with_csv_data`: a `MATCH ... SET`
updating the language's attributes (a NaN cell stringifies to "nan"), a
`MATCH l MATCH c MERGE (l)-[:LOCATED_IN]->(c)` when Country_ID is
non-null, and a `MERGE (f:Languagefamily) WITH f MATCH l MERGE
(l)-[:BELONGS_TO]->(f)` when Family is non-null and not "Unknown".  The
family node id is the escaped family string with "Family" appended and
escaped again, as in the code. -/
def enrichSetKvs (r : LangRow) : List (String × String) :=
  [("family", esc (r.Family.getD "nan")), ("subfamily", esc (r.Subfamily.getD "nan")),
   ("genus", esc (r.Genus.getD "nan")), ("macroarea", esc (r.Macroarea.getD "nan")),
   ("iso_code", esc (r.ISO639P3code.getD "nan")),
   ("country_id", esc (r.Country_ID.getD "nan"))]

def enrichLangStep (s : GraphState) (r : LangRow) : GraphState :=
  let nm := esc r.Name
  let family := esc (r.Family.getD "nan")
  let s1 := setAllMatching s "Language" [("id", nm)] (enrichSetKvs r)
  let s2 :=
    if r.Country_ID.isSome then
      mergeEdges s1 (matchIdxs s1 "Language" [("id", nm)]) "LOCATED_IN"
        (matchIdxs s1 "Country" [("id", esc (r.Country_ID.getD "nan"))])
    else s1
  if r.Family.isSome && (family != "Unknown") then
    let p := mergeNodeAll s2 "Languagefamily" [("id", esc (family ++ "Family"))]
    mergeEdges p.1 (matchIdxs p.1 "Language" [("id", nm)]) "BELONGS_TO" p.2
  else s2

/-- `GraphBuilder.enrich_with_csv_data(languages_csv, countries_csv)`:
all country rows, then all language rows. -/
def enrich_with_csv_data (countries : List CountryRow) (langs : List LangRow)
    (s : GraphState) : GraphState :=
  langs.foldl enrichLangStep (countries.foldl enrichCountryStep s)

/-! ### GraphBuilder.complete_missing_languages -/

/-- `MATCH (l:Language) RETURN l.id` — the stored language identifiers. -/
def existingLangIds (s : GraphState) : List String :=
  s.nodes.filterMap (fun n => if n.label == "Language" then lookupProp n.props "id" else none)

/-- The per-missing-row body of `complete_missing_languages`: a `MERGE
(l:Language {id: clean_name}) SET ...` (only the name is escaped here,
the other values are interpolated raw), then the country and family
merge queries guarded by the code's truthiness tests. -/
def completeSetKvs (r : LangRow) : List (String × String) :=
  [("family", r.Family.getD "nan"), ("subfamily", r.Subfamily.getD "nan"),
   ("genus", r.Genus.getD "nan"), ("country_id", r.Country_ID.getD "nan"),
   ("iso_code", r.ISO639P3code.getD "nan"), ("macroarea", r.Macroarea.getD "nan")]

/-- The query shape `MERGE (x:label2 {id: g}) WITH x MATCH (l:Language
{id: nm}) MERGE (l)-[:T]->(x)` used for the country and family queries
of `complete_missing_languages`. -/
def mergeBindEdges (s : GraphState) (label2 g nm T : String) : GraphState :=
  let p := mergeNodeAll s label2 [("id", g)]
  mergeEdges p.1 (matchIdxs p.1 "Language" [("id", nm)]) T p.2

def completeStep (s : GraphState) (r : LangRow) : GraphState :=
  let nm := esc r.Name
  let family := r.Family.getD "nan"
  let country_id := r.Country_ID.getD "nan"
  let s1 := (mergeNodeAll s "Language" [("id", nm)]).1
  let s2 := setAllMatching s1 "Language" [("id", nm)] (completeSetKvs r)
  let s3 :=
    if r.Country_ID.isSome && (country_id != "") then
      mergeBindEdges s2 "Country" country_id nm "LOCATED_IN"
    else s2
  if (family != "") && (family != "Unknown") then
    mergeBindEdges s3 "Languagefamily" (family ++ "Family") nm "BELONGS_TO"
  else s3

/-- `GraphBuilder.complete_missing_languages()`: compute the missing
names against the current store once, return immediately when none are
missing, else process exactly the rows whose (raw) Name is missing. -/
def complete_missing_languages (langs : List LangRow) (s : GraphState) : GraphState :=
  if langs.all (fun r => (existingLangIds s).contains r.Name) then s
  else langs.foldl
    (fun t r => if (existingLangIds s).contains r.Name then t else completeStep t r) s

/-! ### Matching is determined by label, id and name

The SET statements of both functions never touch the `id` or `name`
properties, and every node pattern they match or merge on uses only
those keys, so matching behaviour is captured by each node's
(label, id, name) key. -/

def nodeKey (n : GNode) : String × Option String × Option String :=
  (n.label, lookupProp n.props "id", lookupProp n.props "name")

def keyPat (pat : List (String × String)) : Prop :=
  ∀ kv ∈ pat, kv.1 = "id" ∨ kv.1 = "name"

theorem keyPat_id (x : String) : keyPat [("id", x)] := by
  intro kv hkv
  simp only [List.mem_singleton] at hkv
  subst hkv
  exact Or.inl rfl

theorem keyPat_id_name (x y : String) : keyPat [("id", x), ("name", y)] := by
  intro kv hkv
  rcases List.mem_cons.mp hkv with h | h
  · subst h; exact Or.inl rfl
  · simp only [List.mem_singleton] at h
    subst h; exact Or.inr rfl

theorem all_congr_aux {α : Type} (l : List α) (f g : α → Bool)
    (h : ∀ a ∈ l, f a = g a) : l.all f = l.all g := by
  induction l with
  | nil => rfl
  | cons a t ih =>
    rw [List.all_cons, List.all_cons, h a (List.mem_cons_self a t),
      ih (fun x hx => h x (List.mem_cons_of_mem a hx))]

theorem nodeMatches_key {n m : GNode} (h : nodeKey n = nodeKey m)
    (label : String) {pat : List (String × String)} (hp : keyPat pat) :
    nodeMatches n label pat = nodeMatches m label pat := by
  unfold nodeKey at h
  rw [Prod.mk.injEq, Prod.mk.injEq] at h
  obtain ⟨h1, h2, h3⟩ := h
  unfold nodeMatches
  rw [h1]
  congr 1
  apply all_congr_aux
  intro kv hkv
  rcases hp kv hkv with hk | hk
  · rw [hk, h2]
  · rw [hk, h3]

theorem idxsAux_congr (pred1 pred2 : GNode → Bool)
    (hagree : ∀ n m, nodeKey n = nodeKey m → pred1 n = pred2 m) :
    ∀ (ns ms : List GNode) (k : Nat), ns.map nodeKey = ms.map nodeKey →
      idxsAux pred1 ns k = idxsAux pred2 ms k := by
  intro ns
  induction ns with
  | nil =>
    intro ms k h
    cases ms with
    | nil => rfl
    | cons m t => simp at h
  | cons n t ih =>
    intro ms k h
    cases ms with
    | nil => simp at h
    | cons m ms' =>
      simp only [List.map_cons, List.cons.injEq] at h
      unfold idxsAux
      rw [hagree n m h.1, ih ms' (k + 1) h.2]

theorem matchIdxs_congr {s t : GraphState}
    (h : s.nodes.map nodeKey = t.nodes.map nodeKey)
    (label : String) {pat : List (String × String)} (hp : keyPat pat) :
    matchIdxs s label pat = matchIdxs t label pat :=
  idxsAux_congr _ _ (fun n m hk => nodeMatches_key hk label hp) s.nodes t.nodes 0 h

theorem idxsAux_append (pred : GNode → Bool) :
    ∀ (ns ms : List GNode) (k : Nat),
      idxsAux pred (ns ++ ms) k = idxsAux pred ns k ++ idxsAux pred ms (k + ns.length) := by
  intro ns
  induction ns with
  | nil => intro ms k; simp [idxsAux]
  | cons n t ih =>
    intro ms k
    rw [List.cons_append, List.length_cons]
    have harith : k + 1 + t.length = k + (t.length + 1) := by omega
    generalize hX : idxsAux pred ms (k + (t.length + 1)) = X
    unfold idxsAux
    rw [ih ms (k + 1), harith, hX]
    by_cases hp : pred n
    · rw [if_pos hp, if_pos hp, List.cons_append]
    · rw [if_neg hp, if_neg hp]

theorem idxs_extension (pred1 pred2 : GNode → Bool)
    (hagree : ∀ n m, nodeKey n = nodeKey m → pred1 n = pred2 m) :
    ∀ (ns ms : List GNode) (u : List (String × Option String × Option String)) (k : Nat),
      ms.map nodeKey = ns.map nodeKey ++ u →
      ∃ w, idxsAux pred2 ms k = idxsAux pred1 ns k ++ w := by
  intro ns
  induction ns with
  | nil =>
    intro ms u k _
    exact ⟨idxsAux pred2 ms k, by simp [idxsAux]⟩
  | cons n t ih =>
    intro ms u k h
    cases ms with
    | nil => simp at h
    | cons m ms' =>
      simp only [List.map_cons, List.cons_append, List.cons.injEq] at h
      obtain ⟨h1, h2⟩ := h
      obtain ⟨w, hw⟩ := ih ms' u (k + 1) h2
      unfold idxsAux
      rw [show pred1 n = pred2 m from hagree n m h1.symm]
      by_cases hpm : pred2 m
      · rw [if_pos hpm, if_pos hpm]
        exact ⟨w, by rw [hw, List.cons_append]⟩
      · rw [if_neg hpm, if_neg hpm]
        exact ⟨w, hw⟩

theorem matchIdxs_extension {s t : GraphState}
    (h : ∃ u, t.nodes.map nodeKey = s.nodes.map nodeKey ++ u)
    (label : String) {pat : List (String × String)} (hp : keyPat pat) :
    ∃ w, matchIdxs t label pat = matchIdxs s label pat ++ w := by
  obtain ⟨u, hu⟩ := h
  exact idxs_extension _ _ (fun n m hk => nodeMatches_key hk label hp) s.nodes t.nodes u 0 hu

theorem matchIdxs_ne_extension {s t : GraphState}
    (h : ∃ u, t.nodes.map nodeKey = s.nodes.map nodeKey ++ u)
    (label : String) {pat : List (String × String)} (hp : keyPat pat)
    (hne : matchIdxs s label pat ≠ []) : matchIdxs t label pat ≠ [] := by
  obtain ⟨w, hw⟩ := matchIdxs_extension h label hp
  rw [hw]
  simp [hne]

/-! ### SET preserves node keys -/

theorem lookupProp_setProp (p : List (String × String)) (k v k2 : String) (h : k2 ≠ k) :
    lookupProp (setProp p k v) k2 = lookupProp p k2 := by
  have hkk2 : (k == k2) = false := beq_eq_false_iff_ne.mpr (Ne.symm h)
  induction p with
  | nil => simp [setProp, lookupProp, hkk2]
  | cons kv rest ih =>
    unfold setProp
    by_cases hk : (kv.1 == k) = true
    · rw [if_pos hk]
      have hkveq : kv.1 = k := eq_of_beq hk
      have hkv2 : (kv.1 == k2) = false := by rw [hkveq]; exact hkk2
      unfold lookupProp
      rw [hkk2, hkv2, if_neg (by simp), if_neg (by simp)]
      exact ih
    · rw [if_neg hk]
      unfold lookupProp
      by_cases hkv2 : (kv.1 == k2) = true
      · rw [hkv2, if_pos rfl, if_pos rfl]
      · rw [Bool.not_eq_true] at hkv2
        rw [hkv2, if_neg (by simp), if_neg (by simp)]
        exact ih

theorem lookupProp_applySets (kvs : List (String × String)) (k2 : String)
    (h : ∀ kv ∈ kvs, kv.1 ≠ k2) :
    ∀ p, lookupProp (applySets p kvs) k2 = lookupProp p k2 := by
  induction kvs with
  | nil => intro p; rfl
  | cons kv t ih =>
    intro p
    have hstep : applySets p (kv :: t) = applySets (setProp p kv.1 kv.2) t := rfl
    rw [hstep, ih (fun x hx => h x (List.mem_cons_of_mem kv hx)),
      lookupProp_setProp p kv.1 kv.2 k2 (Ne.symm (h kv (List.mem_cons_self kv t)))]

/-- The SET statements of the two enrichment passes never write the
`id` or `name` keys. -/
def safeKeys (kvs : List (String × String)) : Prop :=
  ∀ kv ∈ kvs, kv.1 ≠ "id" ∧ kv.1 ≠ "name"

theorem nodeKey_applySets (n : GNode) (kvs : List (String × String)) (h : safeKeys kvs) :
    nodeKey { n with props := applySets n.props kvs } = nodeKey n := by
  unfold nodeKey
  rw [Prod.mk.injEq, Prod.mk.injEq]
  exact ⟨rfl, lookupProp_applySets kvs "id" (fun kv hkv => (h kv hkv).1) n.props,
    lookupProp_applySets kvs "name" (fun kv hkv => (h kv hkv).2) n.props⟩

theorem map_congr_aux {α β : Type} (l : List α) (f g : α → β)
    (h : ∀ a ∈ l, f a = g a) : l.map f = l.map g := by
  induction l with
  | nil => rfl
  | cons a t ih =>
    rw [List.map_cons, List.map_cons, h a (List.mem_cons_self a t),
      ih (fun x hx => h x (List.mem_cons_of_mem a hx))]

theorem setAll_keys (s : GraphState) (label : String) (pat kvs : List (String × String))
    (h : safeKeys kvs) :
    (setAllMatching s label pat kvs).nodes.map nodeKey = s.nodes.map nodeKey := by
  unfold setAllMatching
  rw [List.map_map]
  apply map_congr_aux
  intro n _
  show nodeKey (if nodeMatches n label pat then
      { n with props := applySets n.props kvs } else n) = nodeKey n
  by_cases hm : nodeMatches n label pat
  · rw [if_pos hm, nodeKey_applySets n kvs h]
  · rw [if_neg hm]

theorem setAll_edges (s : GraphState) (label : String) (pat kvs : List (String × String)) :
    (setAllMatching s label pat kvs).edges = s.edges := rfl

/-! ### Edge merges -/

theorem mergeEdge_nodes (s : GraphState) (a : Nat) (t : String) (b : Nat) :
    (mergeEdge s a t b).nodes = s.nodes := by
  unfold mergeEdge
  by_cases h : (a, t, b) ∈ s.edges <;> simp [h]

theorem mergeEdge_extend (s : GraphState) (a : Nat) (t : String) (b : Nat) :
    ∃ v, (mergeEdge s a t b).edges = s.edges ++ v := by
  unfold mergeEdge
  by_cases h : (a, t, b) ∈ s.edges
  · exact ⟨[], by simp [h]⟩
  · exact ⟨[(a, t, b)], by simp [h]⟩

theorem mergeEdge_mem_pre (s : GraphState) (a : Nat) (t : String) (b : Nat)
    (e : Nat × String × Nat) (he : e ∈ s.edges) : e ∈ (mergeEdge s a t b).edges := by
  obtain ⟨v, hv⟩ := mergeEdge_extend s a t b
  rw [hv]
  exact List.mem_append_left v he

theorem mergeEdge_mem_new (s : GraphState) (a : Nat) (t : String) (b : Nat) :
    (a, t, b) ∈ (mergeEdge s a t b).edges := by
  unfold mergeEdge
  by_cases h : (a, t, b) ∈ s.edges
  · rw [if_pos h]; exact h
  · rw [if_neg h]; simp

theorem mergeEdge_noop (s : GraphState) (a : Nat) (t : String) (b : Nat)
    (h : (a, t, b) ∈ s.edges) : mergeEdge s a t b = s := by
  unfold mergeEdge
  rw [if_pos h]

theorem edgeFold_nodes (t : String) (a : Nat) :
    ∀ (rs : List Nat) (acc : GraphState),
      (rs.foldl (fun acc2 b => mergeEdge acc2 a t b) acc).nodes = acc.nodes := by
  intro rs
  induction rs with
  | nil => intro acc; rfl
  | cons b rest ih =>
    intro acc
    rw [List.foldl_cons, ih, mergeEdge_nodes]

theorem edgeFold_extend (t : String) (a : Nat) :
    ∀ (rs : List Nat) (acc : GraphState),
      ∃ v, (rs.foldl (fun acc2 b => mergeEdge acc2 a t b) acc).edges = acc.edges ++ v := by
  intro rs
  induction rs with
  | nil => intro acc; exact ⟨[], by simp⟩
  | cons b rest ih =>
    intro acc
    obtain ⟨v1, hv1⟩ := ih (mergeEdge acc a t b)
    obtain ⟨v0, hv0⟩ := mergeEdge_extend acc a t b
    exact ⟨v0 ++ v1, by rw [List.foldl_cons, hv1, hv0, List.append_assoc]⟩

theorem edgeFold_mem_pre (t : String) (a : Nat) (rs : List Nat) (acc : GraphState)
    (e : Nat × String × Nat) (he : e ∈ acc.edges) :
    e ∈ (rs.foldl (fun acc2 b => mergeEdge acc2 a t b) acc).edges := by
  obtain ⟨v, hv⟩ := edgeFold_extend t a rs acc
  rw [hv]
  exact List.mem_append_left v he

theorem edgeFold_mem (t : String) (a : Nat) :
    ∀ (rs : List Nat) (acc : GraphState) (b : Nat), b ∈ rs →
      (a, t, b) ∈ (rs.foldl (fun acc2 b => mergeEdge acc2 a t b) acc).edges := by
  intro rs
  induction rs with
  | nil => intro acc b hb; simp at hb
  | cons b0 rest ih =>
    intro acc b hb
    rw [List.foldl_cons]
    rcases List.mem_cons.mp hb with hb | hb
    · subst hb
      exact edgeFold_mem_pre t a rest _ _ (mergeEdge_mem_new acc a t b)
    · exact ih _ b hb

theorem edgeFold_noop (t : String) (a : Nat) :
    ∀ (rs : List Nat) (acc : GraphState),
      (∀ b ∈ rs, (a, t, b) ∈ acc.edges) →
      rs.foldl (fun acc2 b => mergeEdge acc2 a t b) acc = acc := by
  intro rs
  induction rs with
  | nil => intro acc _; rfl
  | cons b rest ih =>
    intro acc h
    rw [List.foldl_cons, mergeEdge_noop acc a t b (h b (List.mem_cons_self b rest))]
    exact ih acc (fun x hx => h x (List.mem_cons_of_mem b hx))

theorem mergeEdges_nodes (s : GraphState) (ls : List Nat) (t : String) (rs : List Nat) :
    (mergeEdges s ls t rs).nodes = s.nodes := by
  unfold mergeEdges
  induction ls generalizing s with
  | nil => rfl
  | cons a rest ih =>
    rw [List.foldl_cons]
    rw [ih]
    exact edgeFold_nodes t a rs s

theorem mergeEdges_extend (s : GraphState) (ls : List Nat) (t : String) (rs : List Nat) :
    ∃ v, (mergeEdges s ls t rs).edges = s.edges ++ v := by
  unfold mergeEdges
  induction ls generalizing s with
  | nil => exact ⟨[], by simp⟩
  | cons a rest ih =>
    rw [List.foldl_cons]
    obtain ⟨v1, hv1⟩ := ih (rs.foldl (fun acc2 b => mergeEdge acc2 a t b) s)
    obtain ⟨v0, hv0⟩ := edgeFold_extend t a rs s
    exact ⟨v0 ++ v1, by rw [hv1, hv0, List.append_assoc]⟩

theorem mergeEdges_mem_pre (s : GraphState) (ls : List Nat) (t : String) (rs : List Nat)
    (e : Nat × String × Nat) (he : e ∈ s.edges) : e ∈ (mergeEdges s ls t rs).edges := by
  obtain ⟨v, hv⟩ := mergeEdges_extend s ls t rs
  rw [hv]
  exact List.mem_append_left v he

theorem mergeEdges_mem (s : GraphState) (ls : List Nat) (t : String) (rs : List Nat)
    (a b : Nat) (ha : a ∈ ls) (hb : b ∈ rs) : (a, t, b) ∈ (mergeEdges s ls t rs).edges := by
  unfold mergeEdges
  induction ls generalizing s with
  | nil => simp at ha
  | cons a0 rest ih =>
    rw [List.foldl_cons]
    rcases List.mem_cons.mp ha with ha | ha
    · subst ha
      have hmem := edgeFold_mem t a rs s b hb
      obtain ⟨v, hv⟩ :
          ∃ v, (rest.foldl (fun acc a => rs.foldl (fun acc2 b => mergeEdge acc2 a t b) acc)
            (rs.foldl (fun acc2 b => mergeEdge acc2 a t b) s)).edges
            = (rs.foldl (fun acc2 b => mergeEdge acc2 a t b) s).edges ++ v :=
        mergeEdges_extend (rs.foldl (fun acc2 b => mergeEdge acc2 a t b) s) rest t rs
      rw [hv]
      exact List.mem_append_left v hmem
    · exact ih _ ha

theorem mergeEdges_noop (s : GraphState) (ls : List Nat) (t : String) (rs : List Nat)
    (h : ∀ a ∈ ls, ∀ b ∈ rs, (a, t, b) ∈ s.edges) : mergeEdges s ls t rs = s := by
  unfold mergeEdges
  induction ls with
  | nil => rfl
  | cons a rest ih =>
    rw [List.foldl_cons, edgeFold_noop t a rs s (h a (List.mem_cons_self a rest))]
    exact ih (fun x hx => h x (List.mem_cons_of_mem a hx))

/-! ### Node merges -/

theorem mergeNodeAll_found (s : GraphState) (label : String) (pat : List (String × String))
    (h : matchIdxs s label pat ≠ []) :
    mergeNodeAll s label pat = (s, matchIdxs s label pat) := by
  unfold mergeNodeAll
  rw [if_neg h]

theorem mergeNodeAll_keys_extend (s : GraphState) (label : String)
    (pat : List (String × String)) :
    ∃ u, (mergeNodeAll s label pat).1.nodes.map nodeKey = s.nodes.map nodeKey ++ u := by
  unfold mergeNodeAll
  by_cases h : matchIdxs s label pat = []
  · rw [if_pos h]
    exact ⟨[nodeKey ⟨label, pat⟩], by simp⟩
  · rw [if_neg h]
    exact ⟨[], by simp⟩

theorem mergeNodeAll_edges (s : GraphState) (label : String) (pat : List (String × String)) :
    (mergeNodeAll s label pat).1.edges = s.edges := by
  unfold mergeNodeAll
  by_cases h : matchIdxs s label pat = [] <;> simp [h]

theorem matchIdxs_append_node (s : GraphState) (newn : GNode) (label : String)
    (pat : List (String × String)) (hno : nodeMatches newn label pat = false) :
    matchIdxs { s with nodes := s.nodes ++ [newn] } label pat = matchIdxs s label pat := by
  unfold matchIdxs
  rw [show ({ s with nodes := s.nodes ++ [newn] } : GraphState).nodes
    = s.nodes ++ [newn] from rfl, idxsAux_append]
  simp [idxsAux, hno]

theorem matches_own_id (label x : String) :
    nodeMatches ⟨label, [("id", x)]⟩ label [("id", x)] = true := by
  simp [nodeMatches, lookupProp]

theorem matches_own_id_name (label x y : String) :
    nodeMatches ⟨label, [("id", x), ("name", y)]⟩ label [("id", x), ("name", y)] = true := by
  have hin : (("id" : String) == "name") = false := by decide
  have hni : (("name" : String) == "id") = false := by decide
  simp [nodeMatches, lookupProp, hin, hni]

theorem mergeNodeAll_post (s : GraphState) (label : String) (pat : List (String × String))
    (hself : nodeMatches ⟨label, pat⟩ label pat = true) :
    matchIdxs (mergeNodeAll s label pat).1 label pat ≠ []
    ∧ (mergeNodeAll s label pat).2 = matchIdxs (mergeNodeAll s label pat).1 label pat := by
  by_cases h : matchIdxs s label pat = []
  · have hpair : mergeNodeAll s label pat
        = ({ s with nodes := s.nodes ++ [⟨label, pat⟩] }, [s.nodes.length]) := by
      unfold mergeNodeAll
      rw [if_pos h]
    have hidx : matchIdxs { s with nodes := s.nodes ++ [⟨label, pat⟩] } label pat
        = matchIdxs s label pat ++ [s.nodes.length] := by
      unfold matchIdxs
      rw [show ({ s with nodes := s.nodes ++ [⟨label, pat⟩] } : GraphState).nodes
        = s.nodes ++ [⟨label, pat⟩] from rfl, idxsAux_append]
      simp [idxsAux, hself]
    rw [hpair]
    constructor
    · show matchIdxs { s with nodes := s.nodes ++ [⟨label, pat⟩] } label pat ≠ []
      rw [hidx]
      simp
    · show [s.nodes.length] = matchIdxs { s with nodes := s.nodes ++ [⟨label, pat⟩] } label pat
      rw [hidx, h, List.nil_append]
  · rw [mergeNodeAll_found s label pat h]
    exact ⟨h, rfl⟩

theorem matchIdxs_stable_guarded (s : GraphState) (label2 g : String)
    (hguard : matchIdxs s label2 [("id", g)] = [])
    (label x : String) (hne : matchIdxs s label [("id", x)] ≠ []) :
    matchIdxs { s with nodes := s.nodes ++ [⟨label2, [("id", g)]⟩] } label [("id", x)]
      = matchIdxs s label [("id", x)] := by
  apply matchIdxs_append_node
  by_cases hl : (label2 == label) = true
  · by_cases hg : (g == x) = true
    · exfalso
      have hleq : label2 = label := eq_of_beq hl
      have hgx : g = x := eq_of_beq hg
      subst hleq; subst hgx
      exact hne hguard
    · rw [Bool.not_eq_true] at hg
      simp [nodeMatches, lookupProp, hg]
  · rw [Bool.not_eq_true] at hl
    simp [nodeMatches, hl]

/-- A `MERGE (:label2 {id: g})` never disturbs a non-empty match set of
any single-id pattern: the created node carries exactly `{id: g}` and is
created only when that very pattern had no match. -/
theorem mergeNodeAll_stable (s : GraphState) (label2 g label x : String)
    (hne : matchIdxs s label [("id", x)] ≠ []) :
    matchIdxs (mergeNodeAll s label2 [("id", g)]).1 label [("id", x)]
      = matchIdxs s label [("id", x)] := by
  unfold mergeNodeAll
  by_cases h : matchIdxs s label2 [("id", g)] = []
  · rw [if_pos h]
    exact matchIdxs_stable_guarded s label2 g h label x hne
  · rw [if_neg h]

theorem mergeNodeAll_other_label (s : GraphState) (label2 : String)
    (pat2 : List (String × String)) (label : String) (pat : List (String × String))
    (hll : (label2 == label) = false) :
    matchIdxs (mergeNodeAll s label2 pat2).1 label pat = matchIdxs s label pat := by
  unfold mergeNodeAll
  by_cases h : matchIdxs s label2 pat2 = []
  · rw [if_pos h]
    apply matchIdxs_append_node
    simp [nodeMatches, hll]
  · rw [if_neg h]

/-! ### Step-effect relations

`EnrichSOK s t` records what one language-loop iteration of
`enrich_with_csv_data` can do to the state: it never touches match sets
of labels other than Languagefamily, never disturbs an already non-empty
single-id match set, and only appends node keys and edges.
`CompleteSOK` is the analogue for `complete_missing_languages`, whose
iterations may also create Language and Country nodes (all guarded
single-id merges). -/

def EnrichSOK (s t : GraphState) : Prop :=
  (∀ label x, label ≠ "Languagefamily" →
      matchIdxs t label [("id", x)] = matchIdxs s label [("id", x)])
  ∧ (∀ label x, matchIdxs s label [("id", x)] ≠ [] →
      matchIdxs t label [("id", x)] = matchIdxs s label [("id", x)])
  ∧ (∃ u, t.nodes.map nodeKey = s.nodes.map nodeKey ++ u)
  ∧ (∃ v, t.edges = s.edges ++ v)

def CompleteSOK (s t : GraphState) : Prop :=
  (∀ label x, matchIdxs s label [("id", x)] ≠ [] →
      matchIdxs t label [("id", x)] = matchIdxs s label [("id", x)])
  ∧ (∃ u, t.nodes.map nodeKey = s.nodes.map nodeKey ++ u)
  ∧ (∃ v, t.edges = s.edges ++ v)

theorem EnrichSOK_refl (s : GraphState) : EnrichSOK s s :=
  ⟨fun _ _ _ => rfl, fun _ _ _ => rfl, ⟨[], by simp⟩, ⟨[], by simp⟩⟩

theorem EnrichSOK_trans {s t u : GraphState} (h1 : EnrichSOK s t) (h2 : EnrichSOK t u) :
    EnrichSOK s u := by
  obtain ⟨a1, b1, ⟨u1, hu1⟩, ⟨v1, hv1⟩⟩ := h1
  obtain ⟨a2, b2, ⟨u2, hu2⟩, ⟨v2, hv2⟩⟩ := h2
  refine ⟨?_, ?_, ⟨u1 ++ u2, by rw [hu2, hu1, List.append_assoc]⟩,
    ⟨v1 ++ v2, by rw [hv2, hv1, List.append_assoc]⟩⟩
  · intro label x hl
    rw [a2 label x hl, a1 label x hl]
  · intro label x hne
    have h1x := b1 label x hne
    rw [b2 label x (by rw [h1x]; exact hne), h1x]

theorem CompleteSOK_refl (s : GraphState) : CompleteSOK s s :=
  ⟨fun _ _ _ => rfl, ⟨[], by simp⟩, ⟨[], by simp⟩⟩

theorem CompleteSOK_trans {s t u : GraphState} (h1 : CompleteSOK s t) (h2 : CompleteSOK t u) :
    CompleteSOK s u := by
  obtain ⟨b1, ⟨u1, hu1⟩, ⟨v1, hv1⟩⟩ := h1
  obtain ⟨b2, ⟨u2, hu2⟩, ⟨v2, hv2⟩⟩ := h2
  refine ⟨?_, ⟨u1 ++ u2, by rw [hu2, hu1, List.append_assoc]⟩,
    ⟨v1 ++ v2, by rw [hv2, hv1, List.append_assoc]⟩⟩
  intro label x hne
  have h1x := b1 label x hne
  rw [b2 label x (by rw [h1x]; exact hne), h1x]

theorem safeKeys_enrichSetKvs (r : LangRow) : safeKeys (enrichSetKvs r) := by
  intro kv hkv
  unfold enrichSetKvs at hkv
  simp only [List.mem_cons, List.not_mem_nil, or_false] at hkv
  rcases hkv with rfl | rfl | rfl | rfl | rfl | rfl <;>
    exact ⟨fun h => by simp at h, fun h => by simp at h⟩

theorem safeKeys_completeSetKvs (r : LangRow) : safeKeys (completeSetKvs r) := by
  intro kv hkv
  unfold completeSetKvs at hkv
  simp only [List.mem_cons, List.not_mem_nil, or_false] at hkv
  rcases hkv with rfl | rfl | rfl | rfl | rfl | rfl <;>
    exact ⟨fun h => by simp at h, fun h => by simp at h⟩

theorem matchIdxs_nodes_eq {s t : GraphState} (h : t.nodes = s.nodes)
    (label : String) (pat : List (String × String)) :
    matchIdxs t label pat = matchIdxs s label pat := by
  unfold matchIdxs
  rw [h]

theorem EnrichSOK_setAll (s : GraphState) (label : String)
    (pat kvs : List (String × String)) (h : safeKeys kvs) :
    EnrichSOK s (setAllMatching s label pat kvs) := by
  have hkeys := setAll_keys s label pat kvs h
  exact ⟨fun l x _ => matchIdxs_congr hkeys l (keyPat_id x),
    fun l x _ => matchIdxs_congr hkeys l (keyPat_id x),
    ⟨[], by rw [hkeys, List.append_nil]⟩,
    ⟨[], by rw [setAll_edges, List.append_nil]⟩⟩

theorem EnrichSOK_mergeEdges (s : GraphState) (ls : List Nat) (t : String) (rs : List Nat) :
    EnrichSOK s (mergeEdges s ls t rs) := by
  have hnodes := mergeEdges_nodes s ls t rs
  obtain ⟨v, hv⟩ := mergeEdges_extend s ls t rs
  exact ⟨fun l x _ => matchIdxs_nodes_eq hnodes l _,
    fun l x _ => matchIdxs_nodes_eq hnodes l _,
    ⟨[], by rw [hnodes, List.append_nil]⟩, ⟨v, hv⟩⟩

theorem EnrichSOK_mergeLF (s : GraphState) (g : String) :
    EnrichSOK s (mergeNodeAll s "Languagefamily" [("id", g)]).1 := by
  refine ⟨?_, ?_, mergeNodeAll_keys_extend s "Languagefamily" [("id", g)],
    ⟨[], by rw [mergeNodeAll_edges, List.append_nil]⟩⟩
  · intro label x hl
    exact mergeNodeAll_other_label s "Languagefamily" [("id", g)] label [("id", x)]
      (beq_eq_false_iff_ne.mpr (Ne.symm hl))
  · intro label x hne
    exact mergeNodeAll_stable s "Languagefamily" g label x hne

theorem CompleteSOK_of_EnrichSOK {s t : GraphState} (h : EnrichSOK s t) : CompleteSOK s t :=
  ⟨h.2.1, h.2.2.1, h.2.2.2⟩

theorem CompleteSOK_mergeSingle (s : GraphState) (label2 g : String) :
    CompleteSOK s (mergeNodeAll s label2 [("id", g)]).1 := by
  refine ⟨?_, mergeNodeAll_keys_extend s label2 [("id", g)],
    ⟨[], by rw [mergeNodeAll_edges, List.append_nil]⟩⟩
  intro label x hne
  exact mergeNodeAll_stable s label2 g label x hne

/-- One enrich language-loop iteration satisfies the step relation. -/
theorem enrichLangStep_SOK (s : GraphState) (r : LangRow) :
    EnrichSOK s (enrichLangStep s r) := by
  simp only [enrichLangStep]
  have h1 : EnrichSOK s (setAllMatching s "Language" [("id", esc r.Name)] (enrichSetKvs r)) :=
    EnrichSOK_setAll _ _ _ _ (safeKeys_enrichSetKvs r)
  set s1 := setAllMatching s "Language" [("id", esc r.Name)] (enrichSetKvs r)
  by_cases hc : r.Country_ID.isSome
  · rw [if_pos hc]
    set s2 := mergeEdges s1 (matchIdxs s1 "Language" [("id", esc r.Name)]) "LOCATED_IN"
      (matchIdxs s1 "Country" [("id", esc (r.Country_ID.getD "nan"))]) with hs2
    have h2 : EnrichSOK s s2 := EnrichSOK_trans h1 (EnrichSOK_mergeEdges s1 _ _ _)
    by_cases hf : r.Family.isSome && (esc (r.Family.getD "nan") != "Unknown")
    · rw [if_pos hf]
      have h3 : EnrichSOK s (mergeNodeAll s2 "Languagefamily"
          [("id", esc (esc (r.Family.getD "nan") ++ "Family"))]).1 :=
        EnrichSOK_trans h2 (EnrichSOK_mergeLF s2 _)
      exact EnrichSOK_trans h3 (EnrichSOK_mergeEdges _ _ _ _)
    · rw [if_neg hf]
      exact h2
  · rw [if_neg hc]
    by_cases hf : r.Family.isSome && (esc (r.Family.getD "nan") != "Unknown")
    · rw [if_pos hf]
      have h3 : EnrichSOK s (mergeNodeAll s1 "Languagefamily"
          [("id", esc (esc (r.Family.getD "nan") ++ "Family"))]).1 :=
        EnrichSOK_trans h1 (EnrichSOK_mergeLF s1 _)
      exact EnrichSOK_trans h3 (EnrichSOK_mergeEdges _ _ _ _)
    · rw [if_neg hf]
      exact h1

theorem CompleteSOK_mergeBindEdges (s : GraphState) (label2 g nm T : String) :
    CompleteSOK s (mergeBindEdges s label2 g nm T) := by
  simp only [mergeBindEdges]
  exact CompleteSOK_trans (CompleteSOK_mergeSingle s label2 g)
    (CompleteSOK_of_EnrichSOK (EnrichSOK_mergeEdges _ _ _ _))

/-- One complete-missing-languages iteration satisfies its step
relation. -/
theorem completeStep_SOK (s : GraphState) (r : LangRow) :
    CompleteSOK s (completeStep s r) := by
  simp only [completeStep]
  have h1 : CompleteSOK s (mergeNodeAll s "Language" [("id", esc r.Name)]).1 :=
    CompleteSOK_mergeSingle s "Language" (esc r.Name)
  set s1 := (mergeNodeAll s "Language" [("id", esc r.Name)]).1
  have h2 : CompleteSOK s (setAllMatching s1 "Language" [("id", esc r.Name)]
      (completeSetKvs r)) :=
    CompleteSOK_trans h1 (CompleteSOK_of_EnrichSOK
      (EnrichSOK_setAll _ _ _ _ (safeKeys_completeSetKvs r)))
  set s2 := setAllMatching s1 "Language" [("id", esc r.Name)] (completeSetKvs r)
  by_cases hc : r.Country_ID.isSome && (r.Country_ID.getD "nan" != "")
  · rw [if_pos hc]
    have h3 : CompleteSOK s (mergeBindEdges s2 "Country" (r.Country_ID.getD "nan")
        (esc r.Name) "LOCATED_IN") :=
      CompleteSOK_trans h2 (CompleteSOK_mergeBindEdges s2 _ _ _ _)
    set s3 := mergeBindEdges s2 "Country" (r.Country_ID.getD "nan") (esc r.Name) "LOCATED_IN"
    by_cases hfam : (r.Family.getD "nan" != "") && (r.Family.getD "nan" != "Unknown")
    · rw [if_pos hfam]
      exact CompleteSOK_trans h3 (CompleteSOK_mergeBindEdges s3 _ _ _ _)
    · rw [if_neg hfam]
      exact h3
  · rw [if_neg hc]
    by_cases hfam : (r.Family.getD "nan" != "") && (r.Family.getD "nan" != "Unknown")
    · rw [if_pos hfam]
      exact CompleteSOK_trans h2 (CompleteSOK_mergeBindEdges s2 _ _ _ _)
    · rw [if_neg hfam]
      exact h2

/-! ### What one enrich run guarantees about its final state -/

/-- After `enrich_with_csv_data`, for each language row: every
LOCATED_IN edge its Country_ID demands and every BELONGS_TO edge its
Family demands is present between the matched endpoints, and the family
node it merges exists. -/
def enrichLangFact (s1 : GraphState) (r : LangRow) : Prop :=
  (r.Country_ID.isSome = true →
    ∀ a ∈ matchIdxs s1 "Language" [("id", esc r.Name)],
    ∀ b ∈ matchIdxs s1 "Country" [("id", esc (r.Country_ID.getD "nan"))],
      (a, "LOCATED_IN", b) ∈ s1.edges)
  ∧ ((r.Family.isSome && (esc (r.Family.getD "nan") != "Unknown")) = true →
      matchIdxs s1 "Languagefamily"
        [("id", esc (esc (r.Family.getD "nan") ++ "Family"))] ≠ []
      ∧ ∀ a ∈ matchIdxs s1 "Language" [("id", esc r.Name)],
        ∀ b ∈ matchIdxs s1 "Languagefamily"
          [("id", esc (esc (r.Family.getD "nan") ++ "Family"))],
          (a, "BELONGS_TO", b) ∈ s1.edges)

theorem enrichLangFact_mono {t u : GraphState} (r : LangRow) (hok : EnrichSOK t u)
    (hf : enrichLangFact t r) : enrichLangFact u r := by
  obtain ⟨a1, a2, _, ⟨v, hv⟩⟩ := hok
  obtain ⟨f1, f2⟩ := hf
  have hlang : matchIdxs u "Language" [("id", esc r.Name)]
      = matchIdxs t "Language" [("id", esc r.Name)] := a1 "Language" _ (by decide)
  constructor
  · intro hc a ha b hb
    rw [hlang] at ha
    rw [a1 "Country" _ (by decide)] at hb
    rw [hv]
    exact List.mem_append_left v (f1 hc a ha b hb)
  · intro hcond
    obtain ⟨hne, hforall⟩ := f2 hcond
    have hLF := a2 "Languagefamily" _ hne
    refine ⟨by rw [hLF]; exact hne, ?_⟩
    intro a ha b hb
    rw [hlang] at ha
    rw [hLF] at hb
    rw [hv]
    exact List.mem_append_left v (hforall a ha b hb)

theorem enrichLangStep_establishes (t : GraphState) (r : LangRow) :
    enrichLangFact (enrichLangStep t r) r := by
  unfold enrichLangFact
  simp only [enrichLangStep]
  set s1 := setAllMatching t "Language" [("id", esc r.Name)] (enrichSetKvs r) with hs1
  by_cases hc : r.Country_ID.isSome
  · rw [if_pos hc]
    set A := matchIdxs s1 "Language" [("id", esc r.Name)] with hA
    set B := matchIdxs s1 "Country" [("id", esc (r.Country_ID.getD "nan"))] with hB
    set s2 := mergeEdges s1 A "LOCATED_IN" B with hs2
    have hs2nodes : s2.nodes = s1.nodes := by rw [hs2]; exact mergeEdges_nodes s1 A _ B
    by_cases hfam : r.Family.isSome && (esc (r.Family.getD "nan") != "Unknown")
    · rw [if_pos hfam]
      set fampat : List (String × String)
        := [("id", esc (esc (r.Family.getD "nan") ++ "Family"))] with hfampat
      set p := mergeNodeAll s2 "Languagefamily" fampat with hp
      set Lp := matchIdxs p.1 "Language" [("id", esc r.Name)] with hLp
      set final := mergeEdges p.1 Lp "BELONGS_TO" p.2 with hfinal
      have hfn : final.nodes = p.1.nodes := by
        rw [hfinal]; exact mergeEdges_nodes p.1 Lp _ p.2
      have hLfinal : matchIdxs final "Language" [("id", esc r.Name)] = A := by
        rw [matchIdxs_nodes_eq hfn, hp,
          mergeNodeAll_other_label s2 "Languagefamily" fampat "Language" _ (by decide),
          matchIdxs_nodes_eq hs2nodes]
      have hCfinal : matchIdxs final "Country" [("id", esc (r.Country_ID.getD "nan"))] = B := by
        rw [matchIdxs_nodes_eq hfn, hp,
          mergeNodeAll_other_label s2 "Languagefamily" fampat "Country" _ (by decide),
          matchIdxs_nodes_eq hs2nodes]
      have hLFfinal : matchIdxs final "Languagefamily" fampat = matchIdxs p.1 "Languagefamily" fampat :=
        matchIdxs_nodes_eq hfn _ _
      have hpost := mergeNodeAll_post s2 "Languagefamily" fampat
        (by rw [hfampat]; exact matches_own_id _ _)
      constructor
      · intro _ a ha b hb
        rw [hLfinal] at ha
        rw [hCfinal] at hb
        have hedge : (a, "LOCATED_IN", b) ∈ s2.edges := by
          rw [hs2]; exact mergeEdges_mem s1 A _ B a b ha hb
        have hedge2 : (a, "LOCATED_IN", b) ∈ p.1.edges := by
          rw [hp, mergeNodeAll_edges]
          exact hedge
        rw [hfinal]
        exact mergeEdges_mem_pre p.1 Lp _ p.2 _ hedge2
      · intro _
        refine ⟨by rw [hLFfinal, hp]; exact hpost.1, ?_⟩
        intro a ha b hb
        rw [hLfinal] at ha
        rw [hLFfinal] at hb
        have hb2 : b ∈ p.2 := by
          rw [hp, hpost.2, ← hp]
          exact hb
        have ha2 : a ∈ Lp := by
          rw [hLp, hp,
            mergeNodeAll_other_label s2 "Languagefamily" fampat "Language" _ (by decide),
            matchIdxs_nodes_eq hs2nodes, ← hA]
          exact ha
        rw [hfinal]
        exact mergeEdges_mem p.1 Lp _ p.2 a b ha2 hb2
    · rw [if_neg hfam]
      constructor
      · intro _ a ha b hb
        rw [matchIdxs_nodes_eq hs2nodes] at ha
        rw [matchIdxs_nodes_eq hs2nodes] at hb
        rw [hs2]
        exact mergeEdges_mem s1 A _ B a b ha hb
      · intro hcond
        exact absurd hcond hfam
  · rw [if_neg hc]
    by_cases hfam : r.Family.isSome && (esc (r.Family.getD "nan") != "Unknown")
    · rw [if_pos hfam]
      set fampat : List (String × String)
        := [("id", esc (esc (r.Family.getD "nan") ++ "Family"))] with hfampat
      set p := mergeNodeAll s1 "Languagefamily" fampat with hp
      set Lp := matchIdxs p.1 "Language" [("id", esc r.Name)] with hLp
      set final := mergeEdges p.1 Lp "BELONGS_TO" p.2 with hfinal
      have hfn : final.nodes = p.1.nodes := by
        rw [hfinal]; exact mergeEdges_nodes p.1 Lp _ p.2
      have hpost := mergeNodeAll_post s1 "Languagefamily" fampat
        (by rw [hfampat]; exact matches_own_id _ _)
      constructor
      · intro hcond
        rw [hcond] at hc
        exact absurd rfl hc
      · intro _
        have hLFfinal : matchIdxs final "Languagefamily" fampat
            = matchIdxs p.1 "Languagefamily" fampat := matchIdxs_nodes_eq hfn _ _
        refine ⟨by rw [hLFfinal, hp]; exact hpost.1, ?_⟩
        intro a ha b hb
        have ha2 : a ∈ Lp := by
          rw [hLp]
          rw [matchIdxs_nodes_eq hfn] at ha
          exact ha
        have hb2 : b ∈ p.2 := by
          rw [hp, hpost.2, ← hp]
          rw [hLFfinal] at hb
          exact hb
        rw [hfinal]
        exact mergeEdges_mem p.1 Lp _ p.2 a b ha2 hb2
    · rw [if_neg hfam]
      constructor
      · intro hcond
        rw [hcond] at hc
        exact absurd rfl hc
      · intro hcond
        exact absurd hcond hfam

theorem enrichLangPass_SOK (rows : List LangRow) :
    ∀ s, EnrichSOK s (rows.foldl enrichLangStep s) := by
  induction rows with
  | nil => intro s; exact EnrichSOK_refl s
  | cons r t ih =>
    intro s
    rw [List.foldl_cons]
    exact EnrichSOK_trans (enrichLangStep_SOK s r) (ih (enrichLangStep s r))

theorem enrichLangPass_facts (rows : List LangRow) :
    ∀ s, ∀ r ∈ rows, enrichLangFact (rows.foldl enrichLangStep s) r := by
  induction rows with
  | nil => intro s r hr; simp at hr
  | cons r0 rest ih =>
    intro s r hr
    rw [List.foldl_cons]
    rcases List.mem_cons.mp hr with hr0 | hr0
    · subst hr0
      exact enrichLangFact_mono r (enrichLangPass_SOK rest _)
        (enrichLangStep_establishes s r)
    · exact ih _ r hr0

theorem enrichLangStep_replay (s1 t : GraphState) (r : LangRow)
    (hkeys : t.nodes.map nodeKey = s1.nodes.map nodeKey)
    (hedges : t.edges = s1.edges) (hfact : enrichLangFact s1 r) :
    (enrichLangStep t r).nodes.map nodeKey = s1.nodes.map nodeKey
    ∧ (enrichLangStep t r).edges = s1.edges := by
  obtain ⟨f1, f2⟩ := hfact
  simp only [enrichLangStep]
  set t1 := setAllMatching t "Language" [("id", esc r.Name)] (enrichSetKvs r) with ht1
  have ht1keys : t1.nodes.map nodeKey = s1.nodes.map nodeKey := by
    rw [ht1, setAll_keys _ _ _ _ (safeKeys_enrichSetKvs r)]
    exact hkeys
  have ht1edges : t1.edges = s1.edges := by
    rw [ht1, setAll_edges]
    exact hedges
  have hLidx : matchIdxs t1 "Language" [("id", esc r.Name)]
      = matchIdxs s1 "Language" [("id", esc r.Name)] :=
    matchIdxs_congr ht1keys _ (keyPat_id _)
  have hfambranch : ∀ t2 : GraphState,
      t2.nodes.map nodeKey = s1.nodes.map nodeKey → t2.edges = s1.edges →
      (if r.Family.isSome && (esc (r.Family.getD "nan") != "Unknown") then
        mergeEdges (mergeNodeAll t2 "Languagefamily"
            [("id", esc (esc (r.Family.getD "nan") ++ "Family"))]).1
          (matchIdxs (mergeNodeAll t2 "Languagefamily"
            [("id", esc (esc (r.Family.getD "nan") ++ "Family"))]).1
            "Language" [("id", esc r.Name)]) "BELONGS_TO"
          (mergeNodeAll t2 "Languagefamily"
            [("id", esc (esc (r.Family.getD "nan") ++ "Family"))]).2
       else t2).nodes.map nodeKey = s1.nodes.map nodeKey
      ∧ (if r.Family.isSome && (esc (r.Family.getD "nan") != "Unknown") then
        mergeEdges (mergeNodeAll t2 "Languagefamily"
            [("id", esc (esc (r.Family.getD "nan") ++ "Family"))]).1
          (matchIdxs (mergeNodeAll t2 "Languagefamily"
            [("id", esc (esc (r.Family.getD "nan") ++ "Family"))]).1
            "Language" [("id", esc r.Name)]) "BELONGS_TO"
          (mergeNodeAll t2 "Languagefamily"
            [("id", esc (esc (r.Family.getD "nan") ++ "Family"))]).2
       else t2).edges = s1.edges := by
    intro t2 hk2 he2
    by_cases hfam : r.Family.isSome && (esc (r.Family.getD "nan") != "Unknown")
    · rw [if_pos hfam]
      obtain ⟨hne, hforall⟩ := f2 hfam
      have hLF2 : matchIdxs t2 "Languagefamily"
          [("id", esc (esc (r.Family.getD "nan") ++ "Family"))]
          = matchIdxs s1 "Languagefamily"
            [("id", esc (esc (r.Family.getD "nan") ++ "Family"))] :=
        matchIdxs_congr hk2 _ (keyPat_id _)
      have hfound := mergeNodeAll_found t2 "Languagefamily"
        [("id", esc (esc (r.Family.getD "nan") ++ "Family"))] (by rw [hLF2]; exact hne)
      have hfst : (mergeNodeAll t2 "Languagefamily"
          [("id", esc (esc (r.Family.getD "nan") ++ "Family"))]).1 = t2 := by rw [hfound]
      have hsnd : (mergeNodeAll t2 "Languagefamily"
          [("id", esc (esc (r.Family.getD "nan") ++ "Family"))]).2
          = matchIdxs t2 "Languagefamily"
            [("id", esc (esc (r.Family.getD "nan") ++ "Family"))] := by rw [hfound]
      have hL2 : matchIdxs t2 "Language" [("id", esc r.Name)]
          = matchIdxs s1 "Language" [("id", esc r.Name)] :=
        matchIdxs_congr hk2 _ (keyPat_id _)
      have hnoop : mergeEdges t2 (matchIdxs t2 "Language" [("id", esc r.Name)])
          "BELONGS_TO" (matchIdxs t2 "Languagefamily"
            [("id", esc (esc (r.Family.getD "nan") ++ "Family"))]) = t2 := by
        apply mergeEdges_noop
        intro a ha b hb
        rw [hL2] at ha
        rw [hLF2] at hb
        rw [he2]
        exact hforall a ha b hb
      rw [hfst, hsnd, hnoop]
      exact ⟨hk2, he2⟩
    · rw [if_neg hfam]
      exact ⟨hk2, he2⟩
  by_cases hc : r.Country_ID.isSome
  · rw [if_pos hc]
    have hCidx : matchIdxs t1 "Country" [("id", esc (r.Country_ID.getD "nan"))]
        = matchIdxs s1 "Country" [("id", esc (r.Country_ID.getD "nan"))] :=
      matchIdxs_congr ht1keys _ (keyPat_id _)
    have hnoop : mergeEdges t1 (matchIdxs t1 "Language" [("id", esc r.Name)])
        "LOCATED_IN" (matchIdxs t1 "Country" [("id", esc (r.Country_ID.getD "nan"))]) = t1 := by
      apply mergeEdges_noop
      intro a ha b hb
      rw [hLidx] at ha
      rw [hCidx] at hb
      rw [ht1edges]
      exact f1 hc a ha b hb
    rw [hnoop]
    exact hfambranch t1 ht1keys ht1edges
  · rw [if_neg hc]
    exact hfambranch t1 ht1keys ht1edges

theorem enrichLangPass_replay (rows : List LangRow) (s1 : GraphState)
    (hfacts : ∀ r ∈ rows, enrichLangFact s1 r) :
    ∀ t, t.nodes.map nodeKey = s1.nodes.map nodeKey → t.edges = s1.edges →
      (rows.foldl enrichLangStep t).nodes.map nodeKey = s1.nodes.map nodeKey
      ∧ (rows.foldl enrichLangStep t).edges = s1.edges := by
  induction rows with
  | nil => intro t hk he; exact ⟨hk, he⟩
  | cons r rest ih =>
    intro t hk he
    rw [List.foldl_cons]
    obtain ⟨hk2, he2⟩ :=
      enrichLangStep_replay s1 t r hk he (hfacts r (List.mem_cons_self r rest))
    exact ih (fun x hx => hfacts x (List.mem_cons_of_mem r hx)) _ hk2 he2

/-! ### The country pass -/

def countryFact (s1 : GraphState) (c : CountryRow) : Prop :=
  matchIdxs s1 "Country" [("id", esc c.ID), ("name", esc c.Name)] ≠ []

theorem enrichCountryStep_keys (s : GraphState) (c : CountryRow) :
    ∃ u, (enrichCountryStep s c).nodes.map nodeKey = s.nodes.map nodeKey ++ u :=
  mergeNodeAll_keys_extend s "Country" _

theorem countryPass_keys (cs : List CountryRow) :
    ∀ s, ∃ u, (cs.foldl enrichCountryStep s).nodes.map nodeKey
      = s.nodes.map nodeKey ++ u := by
  induction cs with
  | nil => intro s; exact ⟨[], by simp⟩
  | cons c t ih =>
    intro s
    rw [List.foldl_cons]
    obtain ⟨u1, hu1⟩ := ih (enrichCountryStep s c)
    obtain ⟨u0, hu0⟩ := enrichCountryStep_keys s c
    exact ⟨u0 ++ u1, by rw [hu1, hu0, List.append_assoc]⟩

theorem countryFact_mono {s t : GraphState} (c : CountryRow)
    (h : ∃ u, t.nodes.map nodeKey = s.nodes.map nodeKey ++ u)
    (hf : countryFact s c) : countryFact t c :=
  matchIdxs_ne_extension h "Country" (keyPat_id_name _ _) hf

theorem enrichCountryStep_establishes (s : GraphState) (c : CountryRow) :
    countryFact (enrichCountryStep s c) c :=
  (mergeNodeAll_post s "Country" _ (matches_own_id_name _ _ _)).1

theorem countryPass_facts (cs : List CountryRow) :
    ∀ s, ∀ c ∈ cs, countryFact (cs.foldl enrichCountryStep s) c := by
  induction cs with
  | nil => intro s c hc; simp at hc
  | cons c0 rest ih =>
    intro s c hc
    rw [List.foldl_cons]
    rcases List.mem_cons.mp hc with hc0 | hc0
    · subst hc0
      exact countryFact_mono c (countryPass_keys rest _)
        (enrichCountryStep_establishes s c)
    · exact ih _ c hc0

theorem countryPass_noop (cs : List CountryRow) (s1 : GraphState)
    (hf : ∀ c ∈ cs, countryFact s1 c) : cs.foldl enrichCountryStep s1 = s1 := by
  induction cs with
  | nil => rfl
  | cons c t ih =>
    rw [List.foldl_cons]
    have hstep : enrichCountryStep s1 c = s1 := by
      unfold enrichCountryStep
      rw [mergeNodeAll_found s1 "Country" _ (hf c (List.mem_cons_self c t))]
    rw [hstep]
    exact ih (fun x hx => hf x (List.mem_cons_of_mem c hx))

/-- A second run of `enrich_with_csv_data` leaves node keys and edges
exactly as the first run left them. -/
theorem enrich_run_twice (countries : List CountryRow) (langs : List LangRow)
    (s : GraphState) :
    (enrich_with_csv_data countries langs
        (enrich_with_csv_data countries langs s)).nodes.map nodeKey
      = (enrich_with_csv_data countries langs s).nodes.map nodeKey
    ∧ (enrich_with_csv_data countries langs
        (enrich_with_csv_data countries langs s)).edges
      = (enrich_with_csv_data countries langs s).edges := by
  unfold enrich_with_csv_data
  set sc := countries.foldl enrichCountryStep s with hsc
  set s1 := langs.foldl enrichLangStep sc with hs1
  have hFC : ∀ c ∈ countries, countryFact s1 c := by
    intro c hc
    have h0 : countryFact sc c := by
      rw [hsc]
      exact countryPass_facts countries s c hc
    exact countryFact_mono c (enrichLangPass_SOK langs sc).2.2.1 h0
  have hFL : ∀ r ∈ langs, enrichLangFact s1 r := by
    intro r hr
    rw [hs1]
    exact enrichLangPass_facts langs sc r hr
  have hcp : countries.foldl enrichCountryStep s1 = s1 := countryPass_noop countries s1 hFC
  rw [hcp]
  exact enrichLangPass_replay langs s1 hFL s1 rfl rfl

/-! ### The complete_missing_languages pass runs idempotently too -/

theorem mergeBindEdges_facts (s : GraphState) (label2 g nm T : String)
    (hLangNe : matchIdxs s "Language" [("id", nm)] ≠ []) :
    matchIdxs (mergeBindEdges s label2 g nm T) "Language" [("id", nm)]
      = matchIdxs s "Language" [("id", nm)]
    ∧ matchIdxs (mergeBindEdges s label2 g nm T) label2 [("id", g)] ≠ []
    ∧ (∀ a ∈ matchIdxs (mergeBindEdges s label2 g nm T) "Language" [("id", nm)],
       ∀ b ∈ matchIdxs (mergeBindEdges s label2 g nm T) label2 [("id", g)],
        (a, T, b) ∈ (mergeBindEdges s label2 g nm T).edges)
    ∧ (∀ lab x, matchIdxs s lab [("id", x)] ≠ [] →
        matchIdxs (mergeBindEdges s label2 g nm T) lab [("id", x)]
          = matchIdxs s lab [("id", x)])
    ∧ (∃ v, (mergeBindEdges s label2 g nm T).edges = s.edges ++ v) := by
  simp only [mergeBindEdges]
  set p := mergeNodeAll s label2 [("id", g)] with hp
  set ls := matchIdxs p.1 "Language" [("id", nm)] with hls
  set final := mergeEdges p.1 ls T p.2 with hfinal
  have hfn : final.nodes = p.1.nodes := by
    rw [hfinal]; exact mergeEdges_nodes p.1 ls T p.2
  have hstable : ∀ lab x, matchIdxs s lab [("id", x)] ≠ [] →
      matchIdxs p.1 lab [("id", x)] = matchIdxs s lab [("id", x)] := by
    intro lab x hx
    rw [hp]
    exact mergeNodeAll_stable s label2 g lab x hx
  have hpost := mergeNodeAll_post s label2 [("id", g)] (matches_own_id _ _)
  have hstable2 : ∀ lab x, matchIdxs s lab [("id", x)] ≠ [] →
      matchIdxs final lab [("id", x)] = matchIdxs s lab [("id", x)] := by
    intro lab x hx
    rw [matchIdxs_nodes_eq hfn]
    exact hstable lab x hx
  refine ⟨hstable2 "Language" nm hLangNe, ?_, ?_, hstable2, ?_⟩
  · rw [matchIdxs_nodes_eq hfn, hp]
    exact hpost.1
  · intro a ha b hb
    have ha2 : a ∈ ls := by
      rw [hls]
      rw [matchIdxs_nodes_eq hfn] at ha
      exact ha
    have hb2 : b ∈ p.2 := by
      rw [hp, hpost.2, ← hp]
      rw [matchIdxs_nodes_eq hfn] at hb
      exact hb
    rw [hfinal]
    exact mergeEdges_mem p.1 ls T p.2 a b ha2 hb2
  · obtain ⟨v, hv⟩ := mergeEdges_extend p.1 ls T p.2
    refine ⟨v, ?_⟩
    rw [hfinal, hv, hp, mergeNodeAll_edges]

/-- When the target node already matches and all demanded edges already
exist, the country/family query of `complete_missing_languages` is a
strict no-op. -/
theorem mergeBindEdges_replay (s1 t : GraphState) (label2 g nm T : String)
    (hkeys : t.nodes.map nodeKey = s1.nodes.map nodeKey) (hedges : t.edges = s1.edges)
    (hne : matchIdxs s1 label2 [("id", g)] ≠ [])
    (hpairs : ∀ a ∈ matchIdxs s1 "Language" [("id", nm)],
       ∀ b ∈ matchIdxs s1 label2 [("id", g)], (a, T, b) ∈ s1.edges) :
    mergeBindEdges t label2 g nm T = t := by
  simp only [mergeBindEdges]
  have hLF : matchIdxs t label2 [("id", g)] = matchIdxs s1 label2 [("id", g)] :=
    matchIdxs_congr hkeys _ (keyPat_id _)
  have hfound := mergeNodeAll_found t label2 [("id", g)] (by rw [hLF]; exact hne)
  have hfst : (mergeNodeAll t label2 [("id", g)]).1 = t := by rw [hfound]
  have hsnd : (mergeNodeAll t label2 [("id", g)]).2 = matchIdxs t label2 [("id", g)] := by
    rw [hfound]
  rw [hfst, hsnd]
  apply mergeEdges_noop
  intro a ha b hb
  rw [matchIdxs_congr hkeys _ (keyPat_id _)] at ha
  rw [hLF] at hb
  rw [hedges]
  exact hpairs a ha b hb

/-- What one `completeStep` guarantees about any later state of the same
run: its Language merge pattern matches, and each guarded country/family
query finds its node and sees all its edges already present. -/
def completeFact (s1 : GraphState) (r : LangRow) : Prop :=
  matchIdxs s1 "Language" [("id", esc r.Name)] ≠ []
  ∧ ((r.Country_ID.isSome && (r.Country_ID.getD "nan" != "")) = true →
      matchIdxs s1 "Country" [("id", r.Country_ID.getD "nan")] ≠ []
      ∧ ∀ a ∈ matchIdxs s1 "Language" [("id", esc r.Name)],
        ∀ b ∈ matchIdxs s1 "Country" [("id", r.Country_ID.getD "nan")],
          (a, "LOCATED_IN", b) ∈ s1.edges)
  ∧ (((r.Family.getD "nan" != "") && (r.Family.getD "nan" != "Unknown")) = true →
      matchIdxs s1 "Languagefamily" [("id", r.Family.getD "nan" ++ "Family")] ≠ []
      ∧ ∀ a ∈ matchIdxs s1 "Language" [("id", esc r.Name)],
        ∀ b ∈ matchIdxs s1 "Languagefamily" [("id", r.Family.getD "nan" ++ "Family")],
          (a, "BELONGS_TO", b) ∈ s1.edges)

theorem completeFact_mono {t u : GraphState} (r : LangRow) (hok : CompleteSOK t u)
    (hf : completeFact t r) : completeFact u r := by
  obtain ⟨b1, _, ⟨v, hv⟩⟩ := hok
  obtain ⟨f1, f2, f3⟩ := hf
  have hlang := b1 "Language" (esc r.Name) f1
  refine ⟨by rw [hlang]; exact f1, ?_, ?_⟩
  · intro hc
    obtain ⟨hne, hforall⟩ := f2 hc
    have hC := b1 "Country" _ hne
    refine ⟨by rw [hC]; exact hne, ?_⟩
    intro a ha b hb
    rw [hlang] at ha
    rw [hC] at hb
    rw [hv]
    exact List.mem_append_left v (hforall a ha b hb)
  · intro hfam
    obtain ⟨hne, hforall⟩ := f3 hfam
    have hLF := b1 "Languagefamily" _ hne
    refine ⟨by rw [hLF]; exact hne, ?_⟩
    intro a ha b hb
    rw [hlang] at ha
    rw [hLF] at hb
    rw [hv]
    exact List.mem_append_left v (hforall a ha b hb)

theorem completeStep_establishes (t : GraphState) (r : LangRow) :
    completeFact (completeStep t r) r := by
  unfold completeFact
  simp only [completeStep]
  have hpost1 := mergeNodeAll_post t "Language" [("id", esc r.Name)] (matches_own_id _ _)
  set s1 := (mergeNodeAll t "Language" [("id", esc r.Name)]).1 with hs1
  have hs1ne : matchIdxs s1 "Language" [("id", esc r.Name)] ≠ [] := by
    rw [hs1]; exact hpost1.1
  set s2 := setAllMatching s1 "Language" [("id", esc r.Name)] (completeSetKvs r) with hs2
  have hs2keys : s2.nodes.map nodeKey = s1.nodes.map nodeKey := by
    rw [hs2]; exact setAll_keys _ _ _ _ (safeKeys_completeSetKvs r)
  have hs2idx : ∀ lab x, matchIdxs s2 lab [("id", x)] = matchIdxs s1 lab [("id", x)] :=
    fun lab x => matchIdxs_congr hs2keys _ (keyPat_id _)
  have hs2ne : matchIdxs s2 "Language" [("id", esc r.Name)] ≠ [] := by
    rw [hs2idx]; exact hs1ne
  by_cases hc : r.Country_ID.isSome && (r.Country_ID.getD "nan" != "")
  · rw [if_pos hc]
    obtain ⟨hL3, hCne3, hpairs3, hstab3, ⟨v3, hv3⟩⟩ :=
      mergeBindEdges_facts s2 "Country" (r.Country_ID.getD "nan") (esc r.Name)
        "LOCATED_IN" hs2ne
    set s3 := mergeBindEdges s2 "Country" (r.Country_ID.getD "nan") (esc r.Name)
      "LOCATED_IN" with hs3
    have hs3ne : matchIdxs s3 "Language" [("id", esc r.Name)] ≠ [] := by
      rw [hL3]; exact hs2ne
    by_cases hfam : (r.Family.getD "nan" != "") && (r.Family.getD "nan" != "Unknown")
    · rw [if_pos hfam]
      obtain ⟨hL4, hFne4, hpairs4, hstab4, ⟨v4, hv4⟩⟩ :=
        mergeBindEdges_facts s3 "Languagefamily" (r.Family.getD "nan" ++ "Family")
          (esc r.Name) "BELONGS_TO" hs3ne
      refine ⟨by rw [hL4]; exact hs3ne, ?_, ?_⟩
      · intro _
        have hC4 : matchIdxs (mergeBindEdges s3 "Languagefamily"
            (r.Family.getD "nan" ++ "Family") (esc r.Name) "BELONGS_TO")
            "Country" [("id", r.Country_ID.getD "nan")]
            = matchIdxs s3 "Country" [("id", r.Country_ID.getD "nan")] :=
          hstab4 "Country" _ hCne3
        refine ⟨by rw [hC4]; exact hCne3, ?_⟩
        intro a ha b hb
        rw [hL4, hL3] at ha
        rw [hC4] at hb
        rw [hv4]
        refine List.mem_append_left v4 ?_
        exact hpairs3 a (by rw [hL3]; exact ha) b hb
      · intro _
        exact ⟨hFne4, hpairs4⟩
    · rw [if_neg hfam]
      refine ⟨hs3ne, ?_, fun h => absurd h hfam⟩
      intro _
      exact ⟨hCne3, fun a ha b hb => hpairs3 a ha b hb⟩
  · rw [if_neg hc]
    by_cases hfam : (r.Family.getD "nan" != "") && (r.Family.getD "nan" != "Unknown")
    · rw [if_pos hfam]
      obtain ⟨hL4, hFne4, hpairs4, hstab4, ⟨v4, hv4⟩⟩ :=
        mergeBindEdges_facts s2 "Languagefamily" (r.Family.getD "nan" ++ "Family")
          (esc r.Name) "BELONGS_TO" hs2ne
      refine ⟨by rw [hL4]; exact hs2ne, fun h => absurd h hc, ?_⟩
      intro _
      exact ⟨hFne4, hpairs4⟩
    · rw [if_neg hfam]
      exact ⟨hs2ne, fun h => absurd h hc, fun h => absurd h hfam⟩

theorem completeStep_replay (s1 t : GraphState) (r : LangRow)
    (hkeys : t.nodes.map nodeKey = s1.nodes.map nodeKey)
    (hedges : t.edges = s1.edges) (hfact : completeFact s1 r) :
    (completeStep t r).nodes.map nodeKey = s1.nodes.map nodeKey
    ∧ (completeStep t r).edges = s1.edges := by
  obtain ⟨f1, f2, f3⟩ := hfact
  simp only [completeStep]
  have hLidx : matchIdxs t "Language" [("id", esc r.Name)]
      = matchIdxs s1 "Language" [("id", esc r.Name)] :=
    matchIdxs_congr hkeys _ (keyPat_id _)
  have hfound := mergeNodeAll_found t "Language" [("id", esc r.Name)]
    (by rw [hLidx]; exact f1)
  have hfst : (mergeNodeAll t "Language" [("id", esc r.Name)]).1 = t := by rw [hfound]
  rw [hfst]
  set t2 := setAllMatching t "Language" [("id", esc r.Name)] (completeSetKvs r) with ht2
  have ht2keys : t2.nodes.map nodeKey = s1.nodes.map nodeKey := by
    rw [ht2, setAll_keys _ _ _ _ (safeKeys_completeSetKvs r)]
    exact hkeys
  have ht2edges : t2.edges = s1.edges := by
    rw [ht2, setAll_edges]
    exact hedges
  have hfambranch :
      (if (r.Family.getD "nan" != "") && (r.Family.getD "nan" != "Unknown") then
        mergeBindEdges t2 "Languagefamily" (r.Family.getD "nan" ++ "Family")
          (esc r.Name) "BELONGS_TO"
       else t2).nodes.map nodeKey = s1.nodes.map nodeKey
      ∧ (if (r.Family.getD "nan" != "") && (r.Family.getD "nan" != "Unknown") then
        mergeBindEdges t2 "Languagefamily" (r.Family.getD "nan" ++ "Family")
          (esc r.Name) "BELONGS_TO"
       else t2).edges = s1.edges := by
    by_cases hfam : (r.Family.getD "nan" != "") && (r.Family.getD "nan" != "Unknown")
    · rw [if_pos hfam]
      obtain ⟨ff1, ff2⟩ := f3 hfam
      rw [mergeBindEdges_replay s1 t2 "Languagefamily" (r.Family.getD "nan" ++ "Family")
        (esc r.Name) "BELONGS_TO" ht2keys ht2edges ff1 ff2]
      exact ⟨ht2keys, ht2edges⟩
    · rw [if_neg hfam]
      exact ⟨ht2keys, ht2edges⟩
  by_cases hc : r.Country_ID.isSome && (r.Country_ID.getD "nan" != "")
  · rw [if_pos hc]
    obtain ⟨fc1, fc2⟩ := f2 hc
    rw [mergeBindEdges_replay s1 t2 "Country" (r.Country_ID.getD "nan")
      (esc r.Name) "LOCATED_IN" ht2keys ht2edges fc1 fc2]
    exact hfambranch
  · rw [if_neg hc]
    exact hfambranch

/-! The gated fold used by `complete_missing_languages`: only rows whose
name was missing before the pass get a `completeStep`. -/

theorem completeGPass_SOK (cond : LangRow → Bool) (rows : List LangRow) :
    ∀ s, CompleteSOK s
      (rows.foldl (fun t r => if cond r then t else completeStep t r) s) := by
  induction rows with
  | nil => intro s; exact CompleteSOK_refl s
  | cons r rest ih =>
    intro s
    rw [List.foldl_cons]
    by_cases hcr : cond r
    · rw [if_pos hcr]
      exact ih s
    · rw [if_neg hcr]
      exact CompleteSOK_trans (completeStep_SOK s r) (ih (completeStep s r))

theorem completeGPass_facts (cond : LangRow → Bool) (rows : List LangRow) :
    ∀ s, ∀ r ∈ rows, cond r = false →
      completeFact (rows.foldl (fun t x => if cond x then t else completeStep t x) s) r := by
  induction rows with
  | nil => intro s r hr; simp at hr
  | cons r0 rest ih =>
    intro s r hr hcr
    rw [List.foldl_cons]
    rcases List.mem_cons.mp hr with hr0 | hr0
    · subst hr0
      rw [if_neg (by rw [hcr]; exact Bool.false_ne_true)]
      exact completeFact_mono r (completeGPass_SOK cond rest _)
        (completeStep_establishes s r)
    · exact ih _ r hr0 hcr

theorem completeGPass_replay (cond : LangRow → Bool) (rows : List LangRow)
    (s1 : GraphState)
    (hfacts : ∀ r ∈ rows, cond r = false → completeFact s1 r) :
    ∀ t, t.nodes.map nodeKey = s1.nodes.map nodeKey → t.edges = s1.edges →
      (rows.foldl (fun u r => if cond r then u else completeStep u r) t).nodes.map nodeKey
        = s1.nodes.map nodeKey
      ∧ (rows.foldl (fun u r => if cond r then u else completeStep u r) t).edges
        = s1.edges := by
  induction rows with
  | nil => intro t hk he; exact ⟨hk, he⟩
  | cons r rest ih =>
    intro t hk he
    rw [List.foldl_cons]
    by_cases hcr : cond r
    · rw [if_pos hcr]
      exact ih (fun x hx => hfacts x (List.mem_cons_of_mem r hx)) t hk he
    · rw [if_neg hcr]
      obtain ⟨hk2, he2⟩ := completeStep_replay s1 t r hk he
        (hfacts r (List.mem_cons_self r rest) (Bool.eq_false_iff.mpr hcr))
      exact ih (fun x hx => hfacts x (List.mem_cons_of_mem r hx)) _ hk2 he2

/-! The set of stored language ids only depends on the node key map, and
it only grows, so a name found missing after a pass was already missing
before it. -/

theorem existingLangIds_keys (ns : List GNode) :
    ns.filterMap (fun n => if n.label == "Language" then lookupProp n.props "id" else none)
      = (ns.map nodeKey).filterMap (fun k => if k.1 == "Language" then k.2.1 else none) := by
  induction ns with
  | nil => rfl
  | cons n t ih =>
    simp only [List.map_cons, List.filterMap_cons, nodeKey]
    rw [ih]

theorem existingLangIds_extend {s t : GraphState}
    (h : ∃ u, t.nodes.map nodeKey = s.nodes.map nodeKey ++ u) :
    ∃ w, existingLangIds t = existingLangIds s ++ w := by
  obtain ⟨u, hu⟩ := h
  refine ⟨u.filterMap (fun k => if k.1 == "Language" then k.2.1 else none), ?_⟩
  unfold existingLangIds
  rw [existingLangIds_keys, existingLangIds_keys, hu, List.filterMap_append]

theorem contains_append_left (l1 l2 : List String) (x : String)
    (h : l1.contains x = true) : (l1 ++ l2).contains x = true := by
  have h2 : x ∈ l1 := List.elem_iff.mp h
  exact List.elem_iff.mpr (List.mem_append_left l2 h2)

theorem missing_before {s s1 : GraphState}
    (hext : ∃ w, existingLangIds s1 = existingLangIds s ++ w) :
    ∀ nm, ((existingLangIds s1).contains nm) = false →
      ((existingLangIds s).contains nm) = false := by
  intro nm h
  by_contra hcon
  rw [Bool.not_eq_false] at hcon
  obtain ⟨w, hw⟩ := hext
  rw [hw] at h
  rw [contains_append_left _ w nm hcon] at h
  exact absurd h (by decide)

/-- A second run of `complete_missing_languages` leaves node keys and
edges exactly as the first run left them. -/
theorem complete_run_twice (langs : List LangRow) (s : GraphState) :
    (complete_missing_languages langs
        (complete_missing_languages langs s)).nodes.map nodeKey
      = (complete_missing_languages langs s).nodes.map nodeKey
    ∧ (complete_missing_languages langs
        (complete_missing_languages langs s)).edges
      = (complete_missing_languages langs s).edges := by
  by_cases h1 : langs.all (fun r => (existingLangIds s).contains r.Name)
  · have hid : complete_missing_languages langs s = s := by
      unfold complete_missing_languages
      rw [if_pos h1]
    rw [hid, hid]
    exact ⟨rfl, rfl⟩
  · set s1 := langs.foldl
      (fun t r => if (existingLangIds s).contains r.Name then t else completeStep t r) s
      with hs1
    have heq1 : complete_missing_languages langs s = s1 := by
      unfold complete_missing_languages
      rw [if_neg h1]
    rw [heq1]
    have hfacts1 : ∀ r ∈ langs, ((existingLangIds s).contains r.Name) = false →
        completeFact s1 r := by
      intro r hr hcr
      exact completeGPass_facts (fun x => (existingLangIds s).contains x.Name)
        langs s r hr hcr
    have hkeysext : ∃ u, s1.nodes.map nodeKey = s.nodes.map nodeKey ++ u :=
      (completeGPass_SOK (fun x => (existingLangIds s).contains x.Name) langs s).2.1
    have hsub := missing_before (existingLangIds_extend hkeysext)
    unfold complete_missing_languages
    by_cases h2 : langs.all (fun r => (existingLangIds s1).contains r.Name)
    · rw [if_pos h2]
      exact ⟨rfl, rfl⟩
    · rw [if_neg h2]
      exact completeGPass_replay (fun x => (existingLangIds s1).contains x.Name) langs s1
        (fun r hr hcr => hfacts1 r hr (hsub r.Name hcr)) s1 rfl rfl

/-- C5: running the ingestion/enrichment pass twice with the same inputs
leaves total node and edge counts unchanged after the second run — every
node write and every LOCATED_IN / BELONGS_TO relationship write of
`enrich_with_csv_data` and `complete_missing_languages` uses merge
(create-if-absent) semantics, so the second run over the same CSV rows
creates no new nodes and no new edges. -/
theorem ingestion_merge_idempotent (countries : List CountryRow) (langs : List LangRow)
    (s : GraphState) :
    ((enrich_with_csv_data countries langs
          (enrich_with_csv_data countries langs s)).nodes.length
        = (enrich_with_csv_data countries langs s).nodes.length
      ∧ (enrich_with_csv_data countries langs
          (enrich_with_csv_data countries langs s)).edges.length
        = (enrich_with_csv_data countries langs s).edges.length)
    ∧ ((complete_missing_languages langs
          (complete_missing_languages langs s)).nodes.length
        = (complete_missing_languages langs s).nodes.length
      ∧ (complete_missing_languages langs
          (complete_missing_languages langs s)).edges.length
        = (complete_missing_languages langs s).edges.length) := by
  obtain ⟨hk, he⟩ := enrich_run_twice countries langs s
  obtain ⟨hk2, he2⟩ := complete_run_twice langs s
  refine ⟨⟨?_, by rw [he]⟩, ⟨?_, by rw [he2]⟩⟩
  · have hlen := congrArg List.length hk
    rwa [List.length_map, List.length_map] at hlen
  · have hlen := congrArg List.length hk2
    rwa [List.length_map, List.length_map] at hlen

end GraphRag
